import Mathlib

/-!
Formal model of the Go rules engine of this repository (`code/logic.py` and the
engine-facing parts of `code/go.py`), together with theorems settling the
specified properties of the engine.

Modelling conventions:
* The Python board `self.board_state` (a list of lists of ints) is modelled as a
  total function `Int → Int → Int`; the engine only ever reads or writes
  in-bounds coordinates, and snapshots (`get_board_state_snapshot`, which the
  Python code compares for the ko rule) are materialised as `List (List Int)`
  over the in-bounds range, exactly as the tuple-of-tuples snapshot is.
* Python `set` objects that are used as work sets (`visited` in
  `count_liberties` and `_explore_territory`, `bordering_colors`) are modelled
  as duplicate-free lists: every insertion in the Python code is guarded by a
  membership test, so consing preserves the set semantics.  A list returned
  where Python iterates a set (`captured_positions.extend(visited)`) keeps the
  same elements, each once.
* Python lists used as stacks (`previous_states`, `move_history`,
  `redo_stack`), which the code only appends to, pops from the end of, and
  tests membership in, are modelled as Lean lists with the most recent element
  at the head.
* The unbounded recursion of `count_liberties` and the `while` loop of
  `_explore_territory` are modelled with an explicit fuel argument; the top
  level entry points pass `n * n + 1` fuel, which is more than the number of
  board cells and hence (as the correctness lemmas below show where needed)
  never runs out on the calls the engine makes.
* `place_stone` returns `None` in Python on every rejection; the model returns
  an `Except` whose error value tags which of the four textually distinct
  `return None` branches of the Python source produced the rejection.
* Scores are Python ints, modelled as `Int`; the final score adds the komi
  `6.5`, so `get_final_scores` is modelled in `ℚ` with komi `13 / 2`.
-/

/-- One recorded move of `go.py`: `(row, col, player, captured_positions)`. -/
@[ext]
structure MoveRec where
  row : Int
  col : Int
  player : Int
  captured : List (Int × Int)

/-- The state held by `GameLogic` in `logic.py`. -/
@[ext]
structure GameState where
  boardSize : Nat
  board : Int → Int → Int
  currentPlayer : Int
  passCount : Nat
  blackScore : Int
  whiteScore : Int
  prevStates : List (List (List Int))
  capturedBlack : Int
  capturedWhite : Int

/-- `reset_game`: empty board, Black to move, all counters cleared. -/
def resetGame (s : GameState) : GameState :=
  { boardSize := s.boardSize
    board := fun _ _ => 0
    currentPlayer := 1
    passCount := 0
    blackScore := 0
    whiteScore := 0
    prevStates := []
    capturedBlack := 0
    capturedWhite := 0 }

/-- `GameLogic(board_size)`: construction runs `reset_game`. -/
def mkGame (n : Nat) : GameState :=
  resetGame
    { boardSize := n, board := fun _ _ => 0, currentPlayer := 1, passCount := 0,
      blackScore := 0, whiteScore := 0, prevStates := [], capturedBlack := 0,
      capturedWhite := 0 }

/-- Writing one cell of the board (`self.board_state[row][col] = v`). -/
def setCell (b : Int → Int → Int) (row col v : Int) : Int → Int → Int :=
  fun r c => if r = row ∧ c = col then v else b r c

/-- `get_board_state_snapshot`: the tuple-of-tuples snapshot of the in-bounds
board, used for ko detection. -/
def getBoardStateSnapshot (n : Nat) (b : Int → Int → Int) : List (List Int) :=
  (List.range n).map fun r => (List.range n).map fun c => b (r : Int) (c : Int)

/-- `get_neighbors`: the up-to-four in-bounds orthogonal neighbors, in the
source order up, down, left, right. -/
def getNeighbors (n : Nat) (row col : Int) : List (Int × Int) :=
  (if 0 < row then [(row - 1, col)] else []) ++
  (if row < (n : Int) - 1 then [(row + 1, col)] else []) ++
  (if 0 < col then [(row, col - 1)] else []) ++
  (if col < (n : Int) - 1 then [(row, col + 1)] else [])

/-- In-bounds predicate matching the bounds check of `place_stone`. -/
def inBoundsP (n : Nat) (row col : Int) : Prop :=
  0 ≤ row ∧ row < (n : Int) ∧ 0 ≤ col ∧ col < (n : Int)

instance (n : Nat) (row col : Int) : Decidable (inBoundsP n row col) := by
  unfold inBoundsP; infer_instance

/-- `count_liberties`: depth-first traversal of the same-colored group seeded
at `(row, col)`, threading the `visited` set, adding one liberty for every
empty neighbor encountered at every stone of the group.  The recursion is
fueled; the top-level entry point `countLibertiesTop` supplies ample fuel. -/
def countLiberties (n : Nat) (b : Int → Int → Int) :
    Nat → Int → Int → List (Int × Int) → Nat × List (Int × Int)
  | 0, _, _, visited => (0, visited)
  | fuel + 1, row, col, visited =>
    if (row, col) ∈ visited then (0, visited)
    else
      let visited1 := (row, col) :: visited
      let color := b row col
      (getNeighbors n row col).foldl
        (fun acc p =>
          if b p.1 p.2 = 0 then (acc.1 + 1, acc.2)
          else if b p.1 p.2 = color then
            let r := countLiberties n b fuel p.1 p.2 acc.2
            (acc.1 + r.1, r.2)
          else acc)
        (0, visited1)

/-- `count_liberties(row, col, visited=set())`: the calls the engine makes
always start from a fresh visited set. -/
def countLibertiesTop (n : Nat) (b : Int → Int → Int) (row col : Int) :
    Nat × List (Int × Int) :=
  countLiberties n b (n * n + 1) row col []

/-- `is_suicide`: zero liberties for the as-placed group and no adjacent
opponent group with zero liberties. -/
def isSuicide (n : Nat) (player : Int) (b : Int → Int → Int) (row col : Int) :
    Bool :=
  if 0 < (countLibertiesTop n b row col).1 then false
  else if (getNeighbors n row col).any fun p =>
      decide (b p.1 p.2 = -player) &&
      decide ((countLibertiesTop n b p.1 p.2).1 = 0) then false
  else true

/-- `capture_stones`: for each neighbor of the new stone holding an opponent
stone, if that group's liberty count is zero, remove the whole group from the
board and extend the captured list with it. -/
def captureStones (n : Nat) (player : Int) (b : Int → Int → Int)
    (row col : Int) : List (Int × Int) × (Int → Int → Int) :=
  (getNeighbors n row col).foldl
    (fun acc p =>
      if acc.2 p.1 p.2 = -player then
        let r := countLibertiesTop n acc.2 p.1 p.2
        if r.1 = 0 then
          (acc.1 ++ r.2, r.2.foldl (fun bb q => setCell bb q.1 q.2 0) acc.2)
        else acc
      else acc)
    ([], b)

/-- The four textually distinct `return None` branches of `place_stone`. -/
inductive MoveError where
  | outOfBounds
  | occupied
  | suicideMove
  | koRepetition
deriving DecidableEq

/-- `place_stone`: bounds and occupancy checks, provisional placement, suicide
check, ko check against `previous_states`, capture, score update, snapshot
recording, player flip, pass-count reset. -/
def placeStone (s : GameState) (row col : Int) :
    Except MoveError (List (Int × Int)) × GameState :=
  if row < 0 ∨ col < 0 ∨ (s.boardSize : Int) ≤ row ∨ (s.boardSize : Int) ≤ col then
    (Except.error MoveError.outOfBounds, s)
  else if s.board row col ≠ 0 then
    (Except.error MoveError.occupied, s)
  else
    let b1 := setCell s.board row col s.currentPlayer
    if isSuicide s.boardSize s.currentPlayer b1 row col then
      (Except.error MoveError.suicideMove, { s with board := setCell b1 row col 0 })
    else
      let snap := getBoardStateSnapshot s.boardSize b1
      if snap ∈ s.prevStates then
        (Except.error MoveError.koRepetition, { s with board := setCell b1 row col 0 })
      else
        let cap := captureStones s.boardSize s.currentPlayer b1 row col
        let num := cap.1.length
        (Except.ok cap.1,
          { s with
            board := cap.2
            blackScore := if s.currentPlayer = 1 then s.blackScore + num else s.blackScore
            whiteScore := if s.currentPlayer = 1 then s.whiteScore else s.whiteScore + num
            capturedBlack := if s.currentPlayer = 1 then s.capturedBlack + num else s.capturedBlack
            capturedWhite := if s.currentPlayer = 1 then s.capturedWhite else s.capturedWhite + num
            prevStates := snap :: s.prevStates
            currentPlayer := -s.currentPlayer
            passCount := 0 })

/-- `pass_turn`: increment the pass counter and flip the player. -/
def passTurn (s : GameState) : GameState :=
  { s with passCount := s.passCount + 1, currentPlayer := -s.currentPlayer }

/-- `is_game_over`: two or more consecutive passes. -/
def isGameOver (s : GameState) : Bool :=
  decide (2 ≤ s.passCount)

/-- `undo_stone`: remove the placed stone, restore captured opponent stones,
roll back the mover's capture bookkeeping, hand the turn back, and pop the
most recent ko snapshot. -/
def undoStone (s : GameState) (row col colorOfMove : Int)
    (captured : List (Int × Int)) : GameState :=
  let b1 := setCell s.board row col 0
  let b2 := captured.foldl (fun bb q => setCell bb q.1 q.2 (-colorOfMove)) b1
  { s with
    board := b2
    blackScore := if colorOfMove = 1 then s.blackScore - captured.length else s.blackScore
    whiteScore := if colorOfMove = 1 then s.whiteScore else s.whiteScore - captured.length
    capturedBlack := if colorOfMove = 1 then s.capturedBlack - captured.length else s.capturedBlack
    capturedWhite := if colorOfMove = 1 then s.capturedWhite else s.capturedWhite - captured.length
    currentPlayer := colorOfMove
    prevStates := s.prevStates.tail }

/-- Insertion into the Python set `bordering_colors`. -/
def addColor (l : List Int) (c : Int) : List Int :=
  if c ∈ l then l else c :: l

/-- The `while queue:` loop of `_explore_territory`: pop the front of the
queue, count the cell, and scan its neighbors, marking them visited, enqueuing
fresh empty cells and recording the colors of fresh stones. -/
def exploreTerritory (n : Nat) (b : Int → Int → Int) :
    Nat → List (Int × Int) → List (Int × Int) → Nat → List Int →
    Nat × List Int × List (Int × Int)
  | 0, _, visited, size, colors => (size, colors, visited)
  | _ + 1, [], visited, size, colors => (size, colors, visited)
  | fuel + 1, q :: queue, visited, size, colors =>
    let scan := (getNeighbors n q.1 q.2).foldl
      (fun (acc : List (Int × Int) × List (Int × Int) × List Int) p =>
        if p ∈ acc.2.1 then acc
        else
          let visited1 := p :: acc.2.1
          if b p.1 p.2 = 0 then (acc.1 ++ [p], visited1, acc.2.2)
          else (acc.1, visited1, addColor acc.2.2 (b p.1 p.2)))
      ([], visited, colors)
    exploreTerritory n b fuel (queue ++ scan.1) scan.2.1 (size + 1) scan.2.2

/-- `_explore_territory(row, col, visited)`: seed the queue with the starting
cell, mark it visited, and return `(territory_size, owner, visited)` where the
owner is the single bordering color, or `0` when zero or several colors
border the region. -/
def exploreTerritoryTop (n : Nat) (b : Int → Int → Int) (row col : Int)
    (visited : List (Int × Int)) : Nat × Int × List (Int × Int) :=
  let r := exploreTerritory n b (n * n + 1) [(row, col)] ((row, col) :: visited) 0 []
  if r.2.1.length = 1 then (r.1, r.2.1.headD 0, r.2.2) else (r.1, 0, r.2.2)

/-- Row-major enumeration of the in-bounds cells, matching the nested
`for r in range(n): for c in range(n):` scan. -/
def allCells (n : Nat) : List (Int × Int) :=
  (List.range n).flatMap fun r => (List.range n).map fun c => ((r : Int), (c : Int))

/-- `calculate_territories`: flood-fill every yet-unvisited empty cell and
credit its region to the single bordering color, if any.  Returns the pair
(black territory, white territory). -/
def calculateTerritories (s : GameState) : Nat × Nat :=
  ((allCells s.boardSize).foldl
    (fun (acc : List (Int × Int) × Nat × Nat) q =>
      if q ∉ acc.1 ∧ s.board q.1 q.2 = 0 then
        let r := exploreTerritoryTop s.boardSize s.board q.1 q.2 acc.1
        if r.2.1 = 1 then (r.2.2, acc.2.1 + r.1, acc.2.2)
        else if r.2.1 = -1 then (r.2.2, acc.2.1, acc.2.2 + r.1)
        else (r.2.2, acc.2.1, acc.2.2)
      else acc)
    ([], 0, 0)).2

/-- `get_scores`: the in-progress display scores, adding `black_score`, the
capture tally and the current territory, per color, with no komi. -/
def getScores (s : GameState) : Int × Int :=
  let t := calculateTerritories s
  (s.blackScore + s.capturedBlack + (t.1 : Int),
   s.whiteScore + s.capturedWhite + (t.2 : Int))

/-- `get_final_scores(territories)`: the same totals with komi `6.5` added to
White. -/
def getFinalScores (s : GameState) (t : Nat × Nat) : ℚ × ℚ :=
  ((s.blackScore : ℚ) + (s.capturedBlack : ℚ) + (t.1 : ℚ),
   (s.whiteScore : ℚ) + (s.capturedWhite : ℚ) + (t.2 : ℚ) + 13 / 2)

/-- The engine-facing state of the `GoGame` window of `go.py`: the logic
object, the move history and the redo stack (head = most recent). -/
@[ext]
structure GuiState where
  logic : GameState
  moveHistory : List MoveRec
  redoStack : List MoveRec

/-- A fresh `GoGame` window: fresh logic, empty histories. -/
def initGui (n : Nat) : GuiState :=
  { logic := mkGame n, moveHistory := [], redoStack := [] }

/-- `GoGame.place_stone`: attempt the move in the logic; on success record
`(row, col, mover, captured)` in the history and clear the redo stack; on
failure only a dialog is shown and the state is unchanged (modelled as
`none`). -/
def guiPlaceStone (g : GuiState) (row col : Int) : Option GuiState :=
  match placeStone g.logic row col with
  | (Except.error _, _) => none
  | (Except.ok captured, l1) =>
    some { logic := l1
           moveHistory :=
             { row := row, col := col, player := -l1.currentPlayer,
               captured := captured } :: g.moveHistory
           redoStack := [] }

/-- `GoGame.undo_move`: pop the last move, revert it in the logic, push it on
the redo stack; with no history only a dialog is shown. -/
def undoMove (g : GuiState) : GuiState :=
  match g.moveHistory with
  | [] => g
  | last :: rest =>
    { logic := undoStone g.logic last.row last.col last.player last.captured
      moveHistory := rest
      redoStack := last :: g.redoStack }

/-- `GoGame.redo_move`: pop the redo stack, override the current player with
the recorded mover, replay the placement through the logic, then restore the
pre-redo current player; on a failed replay the popped entry is dropped. -/
def redoMove (g : GuiState) : GuiState :=
  match g.redoStack with
  | [] => g
  | move :: rest =>
    let originalPlayer := g.logic.currentPlayer
    let l1 := { g.logic with currentPlayer := move.player }
    match placeStone l1 move.row move.col with
    | (Except.error _, l2) =>
      { g with logic := { l2 with currentPlayer := originalPlayer },
               redoStack := rest }
    | (Except.ok recaptured, l2) =>
      { logic := { l2 with currentPlayer := originalPlayer }
        moveHistory :=
          { row := move.row, col := move.col, player := move.player,
            captured := recaptured } :: g.moveHistory
        redoStack := rest }

/-- `GoGame.pass_turn` delegates to the logic. -/
def guiPassTurn (g : GuiState) : GuiState :=
  { g with logic := passTurn g.logic }

/-- `GoGame.reset_game`: reset the logic and clear both histories. -/
def guiReset (g : GuiState) : GuiState :=
  { logic := resetGame g.logic, moveHistory := [], redoStack := [] }

/-- The engine states reachable from a fresh window by the mutating
operations the window exposes. -/
inductive Reachable (n : Nat) : GuiState → Prop
  | init : Reachable n (initGui n)
  | place {g g' : GuiState} {row col : Int} :
      Reachable n g → guiPlaceStone g row col = some g' → Reachable n g'
  | pass {g : GuiState} : Reachable n g → Reachable n (guiPassTurn g)
  | undo {g : GuiState} : Reachable n g → Reachable n (undoMove g)
  | redo {g : GuiState} : Reachable n g → Reachable n (redoMove g)
  | reset {g : GuiState} : Reachable n g → Reachable n (guiReset g)

/-- Playing a whole list of moves through the window, insisting that each one
is accepted. -/
def applyMoves (g : GuiState) : List (Int × Int) → Option GuiState
  | [] => some g
  | m :: ms =>
    match guiPlaceStone g m.1 m.2 with
    | none => none
    | some g1 => applyMoves g1 ms

/-! ### Specification-side notions and proof-side helpers -/

/-- Modelled from the spec, for claim C1: the number of DISTINCT empty cells
orthogonally adjacent to at least one stone of the group found by
`count_liberties` (each empty cell counted once per group). -/
def distinctLibertyCount (n : Nat) (b : Int → Int → Int) (row col : Int) :
    Nat :=
  ((allCells n).filter fun q =>
    decide (b q.1 q.2 = 0) &&
    ((getNeighbors n q.1 q.2).any fun p =>
      decide (p ∈ (countLibertiesTop n b row col).2))).length

/-- One step of same-color connectivity: `q` is an in-bounds orthogonal
neighbor of `p` carrying color `col`. -/
def stepColor (n : Nat) (b : Int → Int → Int) (col : Int) (p q : Int × Int) :
    Prop :=
  q ∈ getNeighbors n p.1 p.2 ∧ b q.1 q.2 = col

/-- Same-color reachability whose path never enters the cells of `V` (the
seed itself is unconstrained). -/
def reachAvoid (n : Nat) (b : Int → Int → Int) (col : Int)
    (V : List (Int × Int)) (p q : Int × Int) : Prop :=
  Relation.ReflTransGen (fun a c => stepColor n b col a c ∧ c ∉ V) p q

/-- Unrestricted same-color reachability. -/
def reaches (n : Nat) (b : Int → Int → Int) (col : Int) (p q : Int × Int) :
    Prop :=
  reachAvoid n b col [] p q

/-- Membership in the group (connected same-color component) seeded at `p`:
the spec notion of a stone group. -/
def inGroup (n : Nat) (b : Int → Int → Int) (p q : Int × Int) : Prop :=
  reaches n b (b p.1 p.2) p q

/-- The cell `q` touches no empty in-bounds cell. -/
def noEmptyNbr (n : Nat) (b : Int → Int → Int) (q : Int × Int) : Prop :=
  ∀ x ∈ getNeighbors n q.1 q.2, b x.1 x.2 ≠ 0

/-- Spec notion: the group seeded at `p` has zero liberties — no stone of the
group is orthogonally adjacent to an empty cell. -/
def groupZeroLibs (n : Nat) (b : Int → Int → Int) (p : Int × Int) : Prop :=
  ∀ q, inGroup n b p q → noEmptyNbr n b q

/-- Spec notion for claim C3: `q` belongs to some orthogonally adjacent
opponent group of the placement cell whose liberty count is zero on the
as-placed board. -/
def capturedSpecAt (n : Nat) (player : Int) (b : Int → Int → Int)
    (row col : Int) (q : Int × Int) : Prop :=
  ∃ p ∈ getNeighbors n row col,
    b p.1 p.2 = -player ∧ groupZeroLibs n b p ∧ inGroup n b p q

/-- A logic state as produced along a pure sequence of placements: pass
counter zero and a two-valued current player. -/
def CleanLogic (l : GameState) : Prop :=
  l.passCount = 0 ∧ (l.currentPlayer = 1 ∨ l.currentPlayer = -1)

/-- Agreement of two logic states on every field except the current player
(the one field `redo_move` knowingly clobbers and restores). -/
def EngineAgrees (a b : GameState) : Prop :=
  a.boardSize = b.boardSize ∧ a.board = b.board ∧ a.passCount = b.passCount ∧
  a.blackScore = b.blackScore ∧ a.whiteScore = b.whiteScore ∧
  a.prevStates = b.prevStates ∧ a.capturedBlack = b.capturedBlack ∧
  a.capturedWhite = b.capturedWhite

/-- Every board cell holds one of Empty, Black, White. -/
def cellValuesOK (s : GameState) : Prop :=
  ∀ r c : Int, s.board r c = 0 ∨ s.board r c = 1 ∨ s.board r c = -1

/-- Every recorded move was made by Black or White. -/
def recsOK (l : List MoveRec) : Prop :=
  ∀ m ∈ l, m.player = 1 ∨ m.player = -1

/-- The in-bounds cells as a finite set (used only as a termination/size
measure in proofs about the fueled DFS). -/
def cellsF (n : Nat) : Finset (Int × Int) :=
  Finset.Icc 0 ((n : Int) - 1) ×ˢ Finset.Icc 0 ((n : Int) - 1)

/-- Number of in-bounds cells not yet visited. -/
def unvisited (n : Nat) (V : List (Int × Int)) : Nat :=
  (cellsF n \ V.toFinset).card

/-! ### Concrete positions used as counterexamples and witnesses -/

/-- A 3×3 board with an L-shaped Black group at (0,0), (1,0), (1,1); the empty
cell (0,1) touches two stones of the group. -/
def c1Board : Int → Int → Int := fun r c =>
  if (r = 0 ∧ c = 0) ∨ (r = 1 ∧ c = 0) ∨ (r = 1 ∧ c = 1) then 1 else 0

/-- A 3×3 position with a Black wall down the middle column, splitting the
empty cells into two regions each enclosed only by Black. -/
def wallState : GameState :=
  { mkGame 3 with board := fun r c => if c = 1 then 1 else 0 }

/-- A 2×2 position where White to move at (0,0) is a suicide: Black holds
(0,1) and (1,0), and neither Black group would be captured. -/
def c2State : GameState :=
  { mkGame 2 with
    board := fun r c => if (r = 0 ∧ c = 1) ∨ (r = 1 ∧ c = 0) then 1 else 0
    currentPlayer := -1 }

/-- Black plays (0,1), White plays (0,0), and Black's (1,0) will capture the
White stone: three engine states of a real 3×3 game. -/
def c6StateA : GameState := (placeStone (mkGame 3) 0 1).2

def c6StateB : GameState := (placeStone c6StateA 0 0).2

def c6StateC : GameState := (placeStone c6StateB 1 0).2

/-- The as-placed board of Black's capturing move at (1,0) in the game above:
the board of `c6StateB` with the provisional Black stone added. -/
def c3Board : Int → Int → Int := setCell c6StateB.board 1 0 1

/-- The GUI state after one accepted move (Black at (0,0)) on a fresh 2×2
window. -/
def c8Game : GuiState := (applyMoves (initGui 2) [(0, 0)]).getD (initGui 2)

/-! ### Basic lemmas about cells, boards and the capture fold -/

/-- Fold induction with an explicit invariant, used to reason about the
`for` loops of the source. -/
theorem foldl_induction {α β : Type} (P : β → Prop) (f : β → α → β)
    (l : List α) (init : β) (h0 : P init)
    (hstep : ∀ acc, P acc → ∀ x ∈ l, P (f acc x)) :
    P (l.foldl f init) := by
  induction l generalizing init with
  | nil => exact h0
  | cons x xs ih =>
    rw [List.foldl_cons]
    exact ih (f init x) (hstep init h0 x (List.mem_cons_self x xs))
      fun acc hacc y hy => hstep acc hacc y (List.mem_cons_of_mem x hy)

theorem setCell_apply (b : Int → Int → Int) (row col v r c : Int) :
    setCell b row col v r c = if r = row ∧ c = col then v else b r c := rfl

theorem setCell_retract (b : Int → Int → Int) (row col v : Int)
    (h : b row col = 0) :
    setCell (setCell b row col v) row col 0 = b := by
  funext r c
  simp only [setCell]
  by_cases hrc : r = row ∧ c = col
  · obtain ⟨h1, h2⟩ := hrc
    subst h1; subst h2
    simp [h]
  · simp [hrc]

theorem restoreList_apply (lst : List (Int × Int)) (b : Int → Int → Int)
    (v r c : Int) :
    (lst.foldl (fun bb q => setCell bb q.1 q.2 v) b) r c =
      if (r, c) ∈ lst then v else b r c := by
  induction lst generalizing b with
  | nil => simp
  | cons q qs ih =>
    rw [List.foldl_cons, ih]
    by_cases hqs : (r, c) ∈ qs
    · simp [hqs]
    · rw [if_neg hqs]
      by_cases hq : (r, c) = q
      · have hrc : r = q.1 ∧ c = q.2 :=
          ⟨congrArg Prod.fst hq, congrArg Prod.snd hq⟩
        simp [setCell, hrc, hq]
      · have hnc : ¬(r = q.1 ∧ c = q.2) := fun hh =>
          hq (Prod.ext_iff.mpr ⟨hh.1, hh.2⟩)
        simp [setCell, hnc, hq, hqs]

theorem not_oob_iff (n : Nat) (row col : Int) :
    ¬(row < 0 ∨ col < 0 ∨ (n : Int) ≤ row ∨ (n : Int) ≤ col) ↔
      inBoundsP n row col := by
  unfold inBoundsP
  omega

/-- Unfolding `countLiberties` at nonzero fuel and an unvisited seed. -/
theorem countLiberties_eq (n : Nat) (b : Int → Int → Int) (fuel : Nat)
    (row col : Int) (V : List (Int × Int)) (h : (row, col) ∉ V) :
    countLiberties n b (fuel + 1) row col V =
      (getNeighbors n row col).foldl
        (fun acc p =>
          if b p.1 p.2 = 0 then (acc.1 + 1, acc.2)
          else if b p.1 p.2 = b row col then
            let r := countLiberties n b fuel p.1 p.2 acc.2
            (acc.1 + r.1, r.2)
          else acc)
        (0, (row, col) :: V) := by
  rw [countLiberties]
  simp [h]

theorem countLiberties_visited_mem (n : Nat) (b : Int → Int → Int) (fuel : Nat)
    (row col : Int) (V : List (Int × Int)) (h : (row, col) ∈ V) :
    countLiberties n b fuel row col V = (0, V) := by
  cases fuel with
  | zero => rw [countLiberties]
  | succ fuel => rw [countLiberties]; simp [h]

/-- The DFS only ever extends the visited list at the front. -/
theorem countLiberties_suffix (n : Nat) (b : Int → Int → Int) :
    ∀ (fuel : Nat) (row col : Int) (V : List (Int × Int)),
      ∃ Δ, (countLiberties n b fuel row col V).2 = Δ ++ V := by
  intro fuel
  induction fuel with
  | zero => intro row col V; exact ⟨[], rfl⟩
  | succ fuel ih =>
    intro row col V
    by_cases hmem : (row, col) ∈ V
    · rw [countLiberties_visited_mem n b _ row col V hmem]
      exact ⟨[], rfl⟩
    · rw [countLiberties_eq n b fuel row col V hmem]
      refine foldl_induction (fun acc => ∃ Δ, acc.2 = Δ ++ V) _
        (getNeighbors n row col) (0, (row, col) :: V) ⟨[(row, col)], rfl⟩ ?_
      rintro acc ⟨Δ, hΔ⟩ p hp
      dsimp only
      by_cases h0 : b p.1 p.2 = 0
      · simp only [if_pos h0]
        exact ⟨Δ, hΔ⟩
      · simp only [if_neg h0]
        by_cases hc : b p.1 p.2 = b row col
        · simp only [if_pos hc]
          obtain ⟨Δ2, hΔ2⟩ := ih p.1 p.2 acc.2
          exact ⟨Δ2 ++ Δ, by rw [hΔ2, hΔ, List.append_assoc]⟩
        · simp only [if_neg hc]
          exact ⟨Δ, hΔ⟩

/-- The DFS visited list stays duplicate-free. -/
theorem countLiberties_nodup (n : Nat) (b : Int → Int → Int) :
    ∀ (fuel : Nat) (row col : Int) (V : List (Int × Int)),
      V.Nodup → ((countLiberties n b fuel row col V).2).Nodup := by
  intro fuel
  induction fuel with
  | zero => intro row col V h; exact h
  | succ fuel ih =>
    intro row col V hV
    by_cases hmem : (row, col) ∈ V
    · rw [countLiberties_visited_mem n b _ row col V hmem]; exact hV
    · rw [countLiberties_eq n b fuel row col V hmem]
      refine foldl_induction (fun acc => acc.2.Nodup) _
        (getNeighbors n row col) (0, (row, col) :: V)
        (List.nodup_cons.mpr ⟨hmem, hV⟩) ?_
      rintro acc hW p hp
      dsimp only
      by_cases h0 : b p.1 p.2 = 0
      · simp only [if_pos h0]; exact hW
      · simp only [if_neg h0]
        by_cases hc : b p.1 p.2 = b row col
        · simp only [if_pos hc]
          exact ih p.1 p.2 acc.2 hW
        · simp only [if_neg hc]; exact hW

/-- Every cell the DFS visits is either previously visited or has the seed's
color. -/
theorem countLiberties_mem_color (n : Nat) (b : Int → Int → Int) :
    ∀ (fuel : Nat) (row col : Int) (V : List (Int × Int)),
      ∀ q ∈ (countLiberties n b fuel row col V).2,
        q ∈ V ∨ b q.1 q.2 = b row col := by
  intro fuel
  induction fuel with
  | zero => intro row col V q hq; exact Or.inl hq
  | succ fuel ih =>
    intro row col V
    by_cases hmem : (row, col) ∈ V
    · rw [countLiberties_visited_mem n b _ row col V hmem]
      exact fun q hq => Or.inl hq
    · rw [countLiberties_eq n b fuel row col V hmem]
      refine foldl_induction
        (fun acc => ∀ q ∈ acc.2, q ∈ V ∨ b q.1 q.2 = b row col) _
        (getNeighbors n row col) (0, (row, col) :: V) ?_ ?_
      · rintro q hq
        rcases List.mem_cons.mp hq with h | h
        · subst h; exact Or.inr rfl
        · exact Or.inl h
      · rintro acc hW p hp
        dsimp only
        by_cases h0 : b p.1 p.2 = 0
        · simp only [if_pos h0]; exact hW
        · simp only [if_neg h0]
          by_cases hc : b p.1 p.2 = b row col
          · simp only [if_pos hc]
            intro q hq
            rcases ih p.1 p.2 acc.2 q hq with h | h
            · exact hW q h
            · exact Or.inr (hc ▸ h)
          · simp only [if_neg hc]; exact hW

/-- The basic shape of `capture_stones`: the final board is the input board
with exactly the returned captured cells cleared; all captured cells held
opponent stones; the returned list has no duplicates. -/
theorem captureStones_basic (n : Nat) (player : Int) (b : Int → Int → Int)
    (row col : Int) (hp : player = 1 ∨ player = -1) :
    (∀ r c : Int, (captureStones n player b row col).2 r c =
        if (r, c) ∈ (captureStones n player b row col).1 then 0 else b r c) ∧
    (∀ q ∈ (captureStones n player b row col).1, b q.1 q.2 = -player) ∧
    ((captureStones n player b row col).1).Nodup := by
  have hpne : -player ≠ 0 := by rcases hp with h | h <;> simp [h]
  unfold captureStones
  refine foldl_induction
    (fun acc =>
      (∀ r c : Int, acc.2 r c = if (r, c) ∈ acc.1 then 0 else b r c) ∧
      (∀ q ∈ acc.1, b q.1 q.2 = -player) ∧ acc.1.Nodup)
    _ (getNeighbors n row col) ([], b) ?_ ?_
  · exact ⟨fun r c => by simp, by simp, List.nodup_nil⟩
  · rintro acc ⟨hboard, hcolor, hnodup⟩ p hp2
    dsimp only
    by_cases hopp : acc.2 p.1 p.2 = -player
    · simp only [if_pos hopp]
      by_cases hzero : (countLibertiesTop n acc.2 p.1 p.2).1 = 0
      · simp only [if_pos hzero]
        have hvis : ∀ q ∈ (countLibertiesTop n acc.2 p.1 p.2).2,
            acc.2 q.1 q.2 = -player := by
          intro q hq
          rcases countLiberties_mem_color n acc.2 (n * n + 1) p.1 p.2 [] q hq
            with h | h
          · exact absurd h (List.not_mem_nil q)
          · rw [h, hopp]
        have hdisj : ∀ q ∈ (countLibertiesTop n acc.2 p.1 p.2).2,
            q ∉ acc.1 := by
          intro q hq hql
          have h2 := hboard q.1 q.2
          rw [if_pos (by simpa using hql)] at h2
          exact hpne (h2 ▸ hvis q hq).symm
        have hvisb : ∀ q ∈ (countLibertiesTop n acc.2 p.1 p.2).2,
            b q.1 q.2 = -player := by
          intro q hq
          have h2 := hboard q.1 q.2
          rw [if_neg (by simpa using hdisj q hq)] at h2
          rw [← h2]
          exact hvis q hq
        refine ⟨?_, ?_, ?_⟩
        · intro r c
          rw [restoreList_apply]
          by_cases hv : (r, c) ∈ (countLibertiesTop n acc.2 p.1 p.2).2
          · simp [hv, List.mem_append]
          · rw [if_neg hv, hboard r c]
            by_cases hl : (r, c) ∈ acc.1
            · simp [hl, List.mem_append]
            · simp [hl, hv, List.mem_append]
        · intro q hq
          rcases List.mem_append.mp hq with h | h
          · exact hcolor q h
          · exact hvisb q h
        · exact List.Nodup.append hnodup
            (countLiberties_nodup n acc.2 (n * n + 1) p.1 p.2 [] List.nodup_nil)
            fun q hql hqv => hdisj q hqv hql
      · simp only [if_neg hzero]
        exact ⟨hboard, hcolor, hnodup⟩
    · simp only [if_neg hopp]
      exact ⟨hboard, hcolor, hnodup⟩

/-! ### Branch characterizations of `place_stone` -/

theorem placeStone_oob (s : GameState) (row col : Int)
    (h : ¬inBoundsP s.boardSize row col) :
    placeStone s row col = (Except.error MoveError.outOfBounds, s) := by
  unfold placeStone
  rw [if_pos]
  unfold inBoundsP at h
  omega

theorem placeStone_occupied (s : GameState) (row col : Int)
    (h1 : inBoundsP s.boardSize row col) (h2 : s.board row col ≠ 0) :
    placeStone s row col = (Except.error MoveError.occupied, s) := by
  unfold placeStone
  rw [if_neg ((not_oob_iff s.boardSize row col).mpr h1), if_pos h2]

theorem placeStone_suicide_case (s : GameState) (row col : Int)
    (h1 : inBoundsP s.boardSize row col) (h2 : s.board row col = 0)
    (h3 : isSuicide s.boardSize s.currentPlayer
        (setCell s.board row col s.currentPlayer) row col = true) :
    placeStone s row col = (Except.error MoveError.suicideMove,
      { s with board :=
          setCell (setCell s.board row col s.currentPlayer) row col 0 }) := by
  unfold placeStone
  rw [if_neg ((not_oob_iff s.boardSize row col).mpr h1),
    if_neg (by simp [h2])]
  dsimp only
  rw [if_pos h3]

theorem placeStone_ko_case (s : GameState) (row col : Int)
    (h1 : inBoundsP s.boardSize row col) (h2 : s.board row col = 0)
    (h3 : isSuicide s.boardSize s.currentPlayer
        (setCell s.board row col s.currentPlayer) row col = false)
    (h4 : getBoardStateSnapshot s.boardSize
        (setCell s.board row col s.currentPlayer) ∈ s.prevStates) :
    placeStone s row col = (Except.error MoveError.koRepetition,
      { s with board :=
          setCell (setCell s.board row col s.currentPlayer) row col 0 }) := by
  unfold placeStone
  rw [if_neg ((not_oob_iff s.boardSize row col).mpr h1),
    if_neg (by simp [h2])]
  dsimp only
  rw [if_neg (by simp [h3]), if_pos h4]

theorem placeStone_accepted (s : GameState) (row col : Int)
    (h1 : inBoundsP s.boardSize row col) (h2 : s.board row col = 0)
    (h3 : isSuicide s.boardSize s.currentPlayer
        (setCell s.board row col s.currentPlayer) row col = false)
    (h4 : getBoardStateSnapshot s.boardSize
        (setCell s.board row col s.currentPlayer) ∉ s.prevStates) :
    placeStone s row col =
      (Except.ok (captureStones s.boardSize s.currentPlayer
          (setCell s.board row col s.currentPlayer) row col).1,
       { s with
         board := (captureStones s.boardSize s.currentPlayer
             (setCell s.board row col s.currentPlayer) row col).2
         blackScore := if s.currentPlayer = 1
           then s.blackScore + ((captureStones s.boardSize s.currentPlayer
               (setCell s.board row col s.currentPlayer) row col).1.length : Int)
           else s.blackScore
         whiteScore := if s.currentPlayer = 1
           then s.whiteScore
           else s.whiteScore + ((captureStones s.boardSize s.currentPlayer
               (setCell s.board row col s.currentPlayer) row col).1.length : Int)
         capturedBlack := if s.currentPlayer = 1
           then s.capturedBlack + ((captureStones s.boardSize s.currentPlayer
               (setCell s.board row col s.currentPlayer) row col).1.length : Int)
           else s.capturedBlack
         capturedWhite := if s.currentPlayer = 1
           then s.capturedWhite
           else s.capturedWhite + ((captureStones s.boardSize s.currentPlayer
               (setCell s.board row col s.currentPlayer) row col).1.length : Int)
         prevStates := getBoardStateSnapshot s.boardSize
             (setCell s.board row col s.currentPlayer) :: s.prevStates
         currentPlayer := -s.currentPlayer
         passCount := 0 }) := by
  unfold placeStone
  rw [if_neg ((not_oob_iff s.boardSize row col).mpr h1),
    if_neg (by simp [h2])]
  dsimp only
  rw [if_neg (by simp [h3]), if_neg h4]

/-- Case elimination: every run of `place_stone` is one of the five branch
shapes above. -/
theorem placeStone_cases (s : GameState) (row col : Int) :
    (¬inBoundsP s.boardSize row col) ∨
    (inBoundsP s.boardSize row col ∧ s.board row col ≠ 0) ∨
    (inBoundsP s.boardSize row col ∧ s.board row col = 0 ∧
      isSuicide s.boardSize s.currentPlayer
        (setCell s.board row col s.currentPlayer) row col = true) ∨
    (inBoundsP s.boardSize row col ∧ s.board row col = 0 ∧
      isSuicide s.boardSize s.currentPlayer
        (setCell s.board row col s.currentPlayer) row col = false ∧
      getBoardStateSnapshot s.boardSize
        (setCell s.board row col s.currentPlayer) ∈ s.prevStates) ∨
    (inBoundsP s.boardSize row col ∧ s.board row col = 0 ∧
      isSuicide s.boardSize s.currentPlayer
        (setCell s.board row col s.currentPlayer) row col = false ∧
      getBoardStateSnapshot s.boardSize
        (setCell s.board row col s.currentPlayer) ∉ s.prevStates) := by
  by_cases h1 : inBoundsP s.boardSize row col
  · by_cases h2 : s.board row col = 0
    · by_cases h3 : isSuicide s.boardSize s.currentPlayer
          (setCell s.board row col s.currentPlayer) row col = true
      · exact Or.inr (Or.inr (Or.inl ⟨h1, h2, h3⟩))
      · have h3' : isSuicide s.boardSize s.currentPlayer
            (setCell s.board row col s.currentPlayer) row col = false :=
          Bool.not_eq_true _ ▸ (by simpa using h3)
        by_cases h4 : getBoardStateSnapshot s.boardSize
            (setCell s.board row col s.currentPlayer) ∈ s.prevStates
        · exact Or.inr (Or.inr (Or.inr (Or.inl ⟨h1, h2, h3', h4⟩)))
        · exact Or.inr (Or.inr (Or.inr (Or.inr ⟨h1, h2, h3', h4⟩)))
    · exact Or.inr (Or.inl ⟨h1, h2⟩)
  · exact Or.inl h1

/-- Every error branch of `place_stone` returns the state unchanged. -/
theorem placeStone_error_unchanged (s : GameState) (row col : Int)
    (e : MoveError) (l : GameState)
    (h : placeStone s row col = (Except.error e, l)) : l = s := by
  rcases placeStone_cases s row col with h1 | ⟨h1, h2⟩ | ⟨h1, h2, h3⟩ |
    ⟨h1, h2, h3, h4⟩ | ⟨h1, h2, h3, h4⟩
  · rw [placeStone_oob s row col h1] at h
    injection h with h' h''
    exact h''.symm
  · rw [placeStone_occupied s row col h1 h2] at h
    injection h with h' h''
    exact h''.symm
  · rw [placeStone_suicide_case s row col h1 h2 h3] at h
    injection h with h' h''
    rw [← h'', setCell_retract s.board row col s.currentPlayer h2]
  · rw [placeStone_ko_case s row col h1 h2 h3 h4] at h
    injection h with h' h''
    rw [← h'', setCell_retract s.board row col s.currentPlayer h2]
  · rw [placeStone_accepted s row col h1 h2 h3 h4] at h
    injection h with h' h''
    exact absurd h' (by simp)

/-- Claim C5: every rejected placement (out of bounds, occupied, suicide, ko)
returns the engine state exactly as it was: board, current player, pass
counter, capture tallies, scores and repetition history are all unchanged. -/
theorem c5_rejection_leaves_state_unchanged (s : GameState) (row col : Int)
    (e : MoveError) (l : GameState)
    (h : placeStone s row col = (Except.error e, l)) : l = s :=
  placeStone_error_unchanged s row col e l h

/-- Witness for C5 at a concrete rejected call: placing out of bounds on a
fresh 3×3 game is rejected and returns the state unchanged. -/
theorem c5_rejection_leaves_state_unchanged_witness :
    placeStone (mkGame 3) (-1) 0 =
      (Except.error MoveError.outOfBounds, mkGame 3) ∧
    (placeStone (mkGame 3) (-1) 0).2 = mkGame 3 := by
  have h : placeStone (mkGame 3) (-1) 0 =
      (Except.error MoveError.outOfBounds, mkGame 3) := rfl
  exact ⟨h, c5_rejection_leaves_state_unchanged (mkGame 3) (-1) 0
    MoveError.outOfBounds (placeStone (mkGame 3) (-1) 0).2 (by rw [h])⟩

/-- Claim C4: superko is decided on pre-capture snapshots.  For an in-bounds,
empty, non-suicidal placement, `place_stone` rejects as ko repetition exactly
when the snapshot taken after the provisional stone is placed but before any
capture equals some entry of the repetition history; and on every accepted
placement it is this same pre-capture snapshot that is appended to the
history. -/
theorem c4_superko_precapture_snapshot (s : GameState) (row col : Int)
    (h1 : inBoundsP s.boardSize row col) (h2 : s.board row col = 0)
    (h3 : isSuicide s.boardSize s.currentPlayer
        (setCell s.board row col s.currentPlayer) row col = false) :
    ((placeStone s row col).1 = Except.error MoveError.koRepetition ↔
      getBoardStateSnapshot s.boardSize
        (setCell s.board row col s.currentPlayer) ∈ s.prevStates) ∧
    (∀ cap l, placeStone s row col = (Except.ok cap, l) →
      l.prevStates = getBoardStateSnapshot s.boardSize
        (setCell s.board row col s.currentPlayer) :: s.prevStates) := by
  by_cases h4 : getBoardStateSnapshot s.boardSize
      (setCell s.board row col s.currentPlayer) ∈ s.prevStates
  · rw [placeStone_ko_case s row col h1 h2 h3 h4]
    refine ⟨⟨fun _ => h4, fun _ => rfl⟩, ?_⟩
    intro cap l h
    injection h with h' h''
    exact absurd h' (by simp)
  · rw [placeStone_accepted s row col h1 h2 h3 h4]
    refine ⟨⟨fun h => absurd h (by simp), fun h => absurd h h4⟩, ?_⟩
    intro cap l h
    injection h with h' h''
    rw [← h'']

/-- Witness for C4 at a concrete placement: Black at (0,0) on a fresh 2×2
game, whose empty repetition history makes the move legal and records the
pre-capture snapshot. -/
theorem c4_superko_precapture_snapshot_witness :
    (inBoundsP (mkGame 2).boardSize 0 0 ∧ (mkGame 2).board 0 0 = 0) ∧
    (((placeStone (mkGame 2) 0 0).1 = Except.error MoveError.koRepetition ↔
      getBoardStateSnapshot (mkGame 2).boardSize
        (setCell (mkGame 2).board 0 0 (mkGame 2).currentPlayer) ∈
          (mkGame 2).prevStates) ∧
    (∀ cap l, placeStone (mkGame 2) 0 0 = (Except.ok cap, l) →
      l.prevStates = getBoardStateSnapshot (mkGame 2).boardSize
        (setCell (mkGame 2).board 0 0 (mkGame 2).currentPlayer) ::
          (mkGame 2).prevStates)) :=
  ⟨⟨by decide, by decide⟩,
   c4_superko_precapture_snapshot (mkGame 2) 0 0 (by decide) (by decide)
     (by decide)⟩

/-- Claim C9 is false on the code: after two consecutive passes the game is
over, yet `place_stone` still accepts a move, a stone appears on the board,
and the pass counter is reset. -/
theorem c9_place_after_game_over_counterexample :
    isGameOver (passTurn (passTurn (mkGame 3))) = true ∧
    (placeStone (passTurn (passTurn (mkGame 3))) 0 0).1 = Except.ok [] ∧
    (placeStone (passTurn (passTurn (mkGame 3))) 0 0).2.board 0 0 = 1 ∧
    (placeStone (passTurn (passTurn (mkGame 3))) 0 0).2.passCount = 0 :=
  ⟨by decide, by rfl, by decide, by decide⟩

/-- Amended claim C9: `place_stone` performs no game-over check at all.  Even
in a state where the game is over, any otherwise-legal placement is accepted,
the mover's stone appears on the board, and the pass counter is reset to
zero (re-opening the game). -/
theorem c9_place_ignores_game_over (s : GameState) (row col : Int)
    (hgo : isGameOver s = true)
    (hp : s.currentPlayer = 1 ∨ s.currentPlayer = -1)
    (h1 : inBoundsP s.boardSize row col) (h2 : s.board row col = 0)
    (h3 : isSuicide s.boardSize s.currentPlayer
        (setCell s.board row col s.currentPlayer) row col = false)
    (h4 : getBoardStateSnapshot s.boardSize
        (setCell s.board row col s.currentPlayer) ∉ s.prevStates) :
    (∃ cap, (placeStone s row col).1 = Except.ok cap) ∧
    (placeStone s row col).2.board row col = s.currentPlayer ∧
    (placeStone s row col).2.passCount = 0 := by
  rw [placeStone_accepted s row col h1 h2 h3 h4]
  obtain ⟨hboard, hcolor, -⟩ := captureStones_basic s.boardSize s.currentPlayer
    (setCell s.board row col s.currentPlayer) row col hp
  have hb1 : setCell s.board row col s.currentPlayer row col =
      s.currentPlayer := by simp [setCell]
  have hnotmem : (row, col) ∉ (captureStones s.boardSize s.currentPlayer
      (setCell s.board row col s.currentPlayer) row col).1 := by
    intro hm
    have hcl := hcolor (row, col) hm
    rw [hb1] at hcl
    rcases hp with h | h <;> rw [h] at hcl <;> exact absurd hcl (by decide)
  refine ⟨⟨_, rfl⟩, ?_, rfl⟩
  show (captureStones s.boardSize s.currentPlayer
      (setCell s.board row col s.currentPlayer) row col).2 row col =
    s.currentPlayer
  rw [hboard row col, if_neg (by simpa using hnotmem), hb1]

/-- Witness for the amended C9: the concrete game-over state above accepts
Black's move at (0,0). -/
theorem c9_place_ignores_game_over_witness :
    isGameOver (passTurn (passTurn (mkGame 3))) = true ∧
    ((∃ cap, (placeStone (passTurn (passTurn (mkGame 3))) 0 0).1 =
        Except.ok cap) ∧
     (placeStone (passTurn (passTurn (mkGame 3))) 0 0).2.board 0 0 =
       (passTurn (passTurn (mkGame 3))).currentPlayer ∧
     (placeStone (passTurn (passTurn (mkGame 3))) 0 0).2.passCount = 0) :=
  ⟨by decide,
   c9_place_ignores_game_over (passTurn (passTurn (mkGame 3))) 0 0 (by decide)
     (by decide) (by decide) (by decide) (by decide) (by decide)⟩

/-- Claim C1 is false on the code: on the L-shaped Black group of `c1Board`
the DFS returns 5 because the shared empty cell (0,1), adjacent to the two
stones (0,0) and (1,1) of the group, is counted once per stone; the number of
distinct empty cells adjacent to the group is 4. -/
theorem c1_count_liberties_overcounts_shared :
    (countLibertiesTop 3 c1Board 0 0).1 = 5 ∧
    distinctLibertyCount 3 c1Board 0 0 = 4 ∧
    (countLibertiesTop 3 c1Board 0 0).1 ≠ distinctLibertyCount 3 c1Board 0 0 :=
  ⟨by decide, by decide, by decide⟩

/-- Claim C7 is false on the code: on `wallState` the right empty column
{(0,2),(1,2),(2,2)} is a maximal empty region all of whose stone neighbors
are Black, yet the territory scan credits Black with only the 3 cells of the
left column (the wall stones were already marked visited by the first
region's flood fill, so the second region records no bordering color and is
treated as neutral). -/
theorem c7_territory_shared_visited_bug :
    calculateTerritories wallState = (3, 0) ∧
    (∀ q ∈ [((0 : Int), (2 : Int)), (1, 2), (2, 2)],
      wallState.board q.1 q.2 = 0) ∧
    (∀ q ∈ [((0 : Int), (2 : Int)), (1, 2), (2, 2)],
      ∀ p ∈ getNeighbors 3 q.1 q.2,
        wallState.board p.1 p.2 ≠ 0 → wallState.board p.1 p.2 = 1) :=
  ⟨by decide, by decide, by decide⟩

/-! ### Elimination lemmas for the GUI-level operations -/

theorem guiPlaceStone_elim (g : GuiState) (row col : Int) (g' : GuiState)
    (h : guiPlaceStone g row col = some g') :
    ∃ cap l1, placeStone g.logic row col = (Except.ok cap, l1) ∧
      g' = { logic := l1,
             moveHistory :=
               { row := row, col := col, player := -l1.currentPlayer,
                 captured := cap } :: g.moveHistory,
             redoStack := [] } := by
  unfold guiPlaceStone at h
  rcases hpl : placeStone g.logic row col with ⟨res, l1⟩
  rw [hpl] at h
  cases res with
  | error e => exact absurd h (by simp)
  | ok cap =>
    refine ⟨cap, l1, rfl, ?_⟩
    exact (Option.some.inj h).symm

theorem placeStone_ok_elim (s : GameState) (row col : Int)
    (cap : List (Int × Int)) (l1 : GameState)
    (h : placeStone s row col = (Except.ok cap, l1)) :
    inBoundsP s.boardSize row col ∧ s.board row col = 0 ∧
    isSuicide s.boardSize s.currentPlayer
      (setCell s.board row col s.currentPlayer) row col = false ∧
    getBoardStateSnapshot s.boardSize
      (setCell s.board row col s.currentPlayer) ∉ s.prevStates ∧
    cap = (captureStones s.boardSize s.currentPlayer
      (setCell s.board row col s.currentPlayer) row col).1 ∧
    l1 = { s with
      board := (captureStones s.boardSize s.currentPlayer
          (setCell s.board row col s.currentPlayer) row col).2
      blackScore := if s.currentPlayer = 1
        then s.blackScore + ((captureStones s.boardSize s.currentPlayer
            (setCell s.board row col s.currentPlayer) row col).1.length : Int)
        else s.blackScore
      whiteScore := if s.currentPlayer = 1
        then s.whiteScore
        else s.whiteScore + ((captureStones s.boardSize s.currentPlayer
            (setCell s.board row col s.currentPlayer) row col).1.length : Int)
      capturedBlack := if s.currentPlayer = 1
        then s.capturedBlack + ((captureStones s.boardSize s.currentPlayer
            (setCell s.board row col s.currentPlayer) row col).1.length : Int)
        else s.capturedBlack
      capturedWhite := if s.currentPlayer = 1
        then s.capturedWhite
        else s.capturedWhite + ((captureStones s.boardSize s.currentPlayer
            (setCell s.board row col s.currentPlayer) row col).1.length : Int)
      prevStates := getBoardStateSnapshot s.boardSize
          (setCell s.board row col s.currentPlayer) :: s.prevStates
      currentPlayer := -s.currentPlayer
      passCount := 0 } := by
  rcases placeStone_cases s row col with h1 | ⟨h1, h2⟩ | ⟨h1, h2, h3⟩ |
    ⟨h1, h2, h3, h4⟩ | ⟨h1, h2, h3, h4⟩
  · rw [placeStone_oob s row col h1] at h
    injection h with h' h''
    exact absurd h' (by simp)
  · rw [placeStone_occupied s row col h1 h2] at h
    injection h with h' h''
    exact absurd h' (by simp)
  · rw [placeStone_suicide_case s row col h1 h2 h3] at h
    injection h with h' h''
    exact absurd h' (by simp)
  · rw [placeStone_ko_case s row col h1 h2 h3 h4] at h
    injection h with h' h''
    exact absurd h' (by simp)
  · rw [placeStone_accepted s row col h1 h2 h3 h4] at h
    injection h with h' h''
    exact ⟨h1, h2, h3, h4, (Except.ok.inj h').symm, h''.symm⟩

theorem undoMove_nil (g : GuiState) (h : g.moveHistory = []) :
    undoMove g = g := by
  unfold undoMove
  rw [h]

theorem undoMove_cons (g : GuiState) (last : MoveRec) (rest : List MoveRec)
    (h : g.moveHistory = last :: rest) :
    undoMove g =
      { logic := undoStone g.logic last.row last.col last.player last.captured,
        moveHistory := rest,
        redoStack := last :: g.redoStack } := by
  unfold undoMove
  rw [h]

theorem redoMove_nil (g : GuiState) (h : g.redoStack = []) :
    redoMove g = g := by
  unfold redoMove
  rw [h]

theorem redoMove_cons_ok (g : GuiState) (move : MoveRec)
    (rest : List MoveRec) (recaptured : List (Int × Int)) (l2 : GameState)
    (h : g.redoStack = move :: rest)
    (hpl : placeStone { g.logic with currentPlayer := move.player }
        move.row move.col = (Except.ok recaptured, l2)) :
    redoMove g =
      { logic := { l2 with currentPlayer := g.logic.currentPlayer },
        moveHistory :=
          { row := move.row, col := move.col, player := move.player,
            captured := recaptured } :: g.moveHistory,
        redoStack := rest } := by
  unfold redoMove
  rw [h]
  dsimp only
  rw [hpl]

theorem redoMove_cons_error (g : GuiState) (move : MoveRec)
    (rest : List MoveRec) (e : MoveError) (l2 : GameState)
    (h : g.redoStack = move :: rest)
    (hpl : placeStone { g.logic with currentPlayer := move.player }
        move.row move.col = (Except.error e, l2)) :
    redoMove g =
      { g with logic := { l2 with currentPlayer := g.logic.currentPlayer },
               redoStack := rest } := by
  unfold redoMove
  rw [h]
  dsimp only
  rw [hpl]

/-! ### Value invariants (claim C10) -/

theorem place_ok_values (s : GameState) (row col : Int)
    (cap : List (Int × Int)) (l1 : GameState)
    (h : placeStone s row col = (Except.ok cap, l1))
    (hp : s.currentPlayer = 1 ∨ s.currentPlayer = -1)
    (hcv : cellValuesOK s) :
    cellValuesOK l1 ∧ l1.currentPlayer = -s.currentPlayer := by
  obtain ⟨h1, h2, h3, h4, hcap, hrec⟩ := placeStone_ok_elim s row col cap l1 h
  subst hrec
  obtain ⟨hboard, -, -⟩ := captureStones_basic s.boardSize s.currentPlayer
    (setCell s.board row col s.currentPlayer) row col hp
  refine ⟨?_, rfl⟩
  unfold cellValuesOK
  dsimp only
  intro r c
  rw [hboard r c]
  by_cases hm : (r, c) ∈ (captureStones s.boardSize s.currentPlayer
      (setCell s.board row col s.currentPlayer) row col).1
  · rw [if_pos hm]
    exact Or.inl rfl
  · rw [if_neg hm, setCell_apply]
    by_cases hrc : r = row ∧ c = col
    · rw [if_pos hrc]
      rcases hp with hh | hh
      · rw [hh]
        exact Or.inr (Or.inl rfl)
      · rw [hh]
        exact Or.inr (Or.inr rfl)
    · rw [if_neg hrc]
      exact hcv r c

theorem undoStone_values (s : GameState) (row col colorOfMove : Int)
    (cap : List (Int × Int)) (hcv : cellValuesOK s)
    (hc : colorOfMove = 1 ∨ colorOfMove = -1) :
    cellValuesOK (undoStone s row col colorOfMove cap) ∧
    (undoStone s row col colorOfMove cap).currentPlayer = colorOfMove := by
  refine ⟨?_, rfl⟩
  unfold cellValuesOK undoStone
  dsimp only
  intro r c
  rw [restoreList_apply]
  by_cases hm : (r, c) ∈ cap
  · rw [if_pos hm]
    rcases hc with hh | hh
    · rw [hh]
      exact Or.inr (Or.inr (by norm_num))
    · rw [hh]
      exact Or.inr (Or.inl (by norm_num))
  · rw [if_neg hm, setCell_apply]
    by_cases hrc : r = row ∧ c = col
    · rw [if_pos hrc]
      exact Or.inl rfl
    · rw [if_neg hrc]
      exact hcv r c

theorem reachable_values (n : Nat) (g : GuiState) (h : Reachable n g) :
    cellValuesOK g.logic ∧
    (g.logic.currentPlayer = 1 ∨ g.logic.currentPlayer = -1) ∧
    recsOK g.moveHistory ∧ recsOK g.redoStack := by
  induction h with
  | init =>
    refine ⟨fun r c => Or.inl rfl, Or.inl rfl, ?_, ?_⟩ <;>
      intro m hm <;> exact absurd hm (List.not_mem_nil m)
  | @place g g' row col hr hpl ih =>
    obtain ⟨hcv, hp, hhist, hredo⟩ := ih
    obtain ⟨cap, l1, heq, hrec⟩ := guiPlaceStone_elim g row col g' hpl
    obtain ⟨hcv1, hcp1⟩ := place_ok_values g.logic row col cap l1 heq hp hcv
    subst hrec
    refine ⟨hcv1, ?_, ?_, ?_⟩
    · rw [hcp1]
      rcases hp with hh | hh <;> rw [hh]
      · exact Or.inr rfl
      · exact Or.inl (by decide)
    · intro m hm
      rcases List.mem_cons.mp hm with hh | hh
      · subst hh
        show -l1.currentPlayer = 1 ∨ -l1.currentPlayer = -1
        rw [hcp1, neg_neg]
        exact hp
      · exact hhist m hh
    · intro m hm
      exact absurd hm (List.not_mem_nil m)
  | @pass g hr ih =>
    obtain ⟨hcv, hp, hhist, hredo⟩ := ih
    refine ⟨hcv, ?_, hhist, hredo⟩
    rcases hp with hh | hh <;>
      simp only [guiPassTurn, passTurn] <;> rw [hh]
    · exact Or.inr rfl
    · exact Or.inl (by decide)
  | @undo g hr ih =>
    obtain ⟨hcv, hp, hhist, hredo⟩ := ih
    cases hh : g.moveHistory with
    | nil =>
      rw [undoMove_nil g hh]
      exact ⟨hcv, hp, hhist, hredo⟩
    | cons last rest =>
      rw [undoMove_cons g last rest hh]
      have hlast : last.player = 1 ∨ last.player = -1 :=
        hhist last (hh ▸ List.mem_cons_self last rest)
      obtain ⟨hcv1, hcp1⟩ :=
        undoStone_values g.logic last.row last.col last.player last.captured
          hcv hlast
      refine ⟨hcv1, hcp1 ▸ hlast, ?_, ?_⟩
      · intro m hm
        exact hhist m (hh ▸ List.mem_cons_of_mem last hm)
      · intro m hm
        rcases List.mem_cons.mp hm with h1 | h1
        · subst h1
          exact hlast
        · exact hredo m h1
  | @redo g hr ih =>
    obtain ⟨hcv, hp, hhist, hredo⟩ := ih
    cases hh : g.redoStack with
    | nil =>
      rw [redoMove_nil g hh]
      exact ⟨hcv, hp, hhist, hredo⟩
    | cons move rest =>
      have hmv : move.player = 1 ∨ move.player = -1 :=
        hredo move (hh ▸ List.mem_cons_self move rest)
      have hrest : recsOK rest := fun m hm =>
        hredo m (hh ▸ List.mem_cons_of_mem move hm)
      rcases hres : placeStone { g.logic with currentPlayer := move.player }
          move.row move.col with ⟨res, l2⟩
      cases res with
      | error e =>
        rw [redoMove_cons_error g move rest e l2 hh hres]
        have hl2 : l2 = { g.logic with currentPlayer := move.player } :=
          placeStone_error_unchanged _ move.row move.col e l2 hres
        subst hl2
        exact ⟨hcv, hp, hhist, hrest⟩
      | ok recaptured =>
        rw [redoMove_cons_ok g move rest recaptured l2 hh hres]
        obtain ⟨hcv2, -⟩ := place_ok_values _ move.row move.col recaptured l2
          hres hmv hcv
        refine ⟨hcv2, hp, ?_, hrest⟩
        intro m hm
        rcases List.mem_cons.mp hm with h1 | h1
        · subst h1
          exact hmv
        · exact hhist m h1
  | @reset g hr ih =>
    refine ⟨fun r c => Or.inl rfl, Or.inl rfl, ?_, ?_⟩ <;>
      intro m hm <;> exact absurd hm (List.not_mem_nil m)

/-- Claim C10: in every state reachable from reset by the window's placement,
pass, undo (and redo) operations — whose undo arguments always come from the
recorded move history — every board cell holds Empty, Black or White
(0, +1, -1) and the current player is always exactly Black or White. -/
theorem c10_cell_and_player_values (n : Nat) (g : GuiState)
    (h : Reachable n g) :
    cellValuesOK g.logic ∧
    (g.logic.currentPlayer = 1 ∨ g.logic.currentPlayer = -1) :=
  ⟨(reachable_values n g h).1, (reachable_values n g h).2.1⟩

/-- Witness for C10 on a concretely reached state: one placed stone, one
pass, one undo from a fresh 3×3 window. -/
theorem c10_cell_and_player_values_witness :
    cellValuesOK (undoMove (guiPassTurn (initGui 3))).logic ∧
    ((undoMove (guiPassTurn (initGui 3))).logic.currentPlayer = 1 ∨
     (undoMove (guiPassTurn (initGui 3))).logic.currentPlayer = -1) :=
  c10_cell_and_player_values 3 (undoMove (guiPassTurn (initGui 3)))
    (Reachable.undo (Reachable.pass Reachable.init))

/-! ### Score bookkeeping (claim C6) -/

theorem place_ok_scores (s : GameState) (row col : Int)
    (cap : List (Int × Int)) (l1 : GameState)
    (h : placeStone s row col = (Except.ok cap, l1))
    (hb : s.blackScore = s.capturedBlack) (hw : s.whiteScore = s.capturedWhite) :
    l1.blackScore = l1.capturedBlack ∧ l1.whiteScore = l1.capturedWhite := by
  obtain ⟨-, -, -, -, -, hrec⟩ := placeStone_ok_elim s row col cap l1 h
  subst hrec
  dsimp only
  by_cases hcp : s.currentPlayer = 1
  · rw [if_pos hcp, if_pos hcp, if_pos hcp, if_pos hcp, hb, hw]
    exact ⟨rfl, rfl⟩
  · rw [if_neg hcp, if_neg hcp, if_neg hcp, if_neg hcp, hb, hw]
    exact ⟨rfl, rfl⟩

/-- Along every reachable state, the redundant per-color fields
`black_score`/`white_score` and the `captured_stones` tallies stay equal —
the source updates them in lockstep everywhere. -/
theorem reachable_scores (n : Nat) (g : GuiState) (h : Reachable n g) :
    g.logic.blackScore = g.logic.capturedBlack ∧
    g.logic.whiteScore = g.logic.capturedWhite := by
  induction h with
  | init => exact ⟨rfl, rfl⟩
  | @place g g' row col hr hpl ih =>
    obtain ⟨cap, l1, heq, hrec⟩ := guiPlaceStone_elim g row col g' hpl
    subst hrec
    exact place_ok_scores g.logic row col cap l1 heq ih.1 ih.2
  | @pass g hr ih => exact ih
  | @undo g hr ih =>
    cases hh : g.moveHistory with
    | nil => rw [undoMove_nil g hh]; exact ih
    | cons last rest =>
      rw [undoMove_cons g last rest hh]
      unfold undoStone
      dsimp only
      by_cases hcp : last.player = 1
      · rw [if_pos hcp, if_pos hcp, ih.1, ih.2]
        exact ⟨rfl, rfl⟩
      · rw [if_neg hcp, if_neg hcp, ih.1, ih.2]
        exact ⟨rfl, rfl⟩
  | @redo g hr ih =>
    cases hh : g.redoStack with
    | nil => rw [redoMove_nil g hh]; exact ih
    | cons move rest =>
      rcases hres : placeStone { g.logic with currentPlayer := move.player }
          move.row move.col with ⟨res, l2⟩
      cases res with
      | error e =>
        rw [redoMove_cons_error g move rest e l2 hh hres]
        have hl2 : l2 = { g.logic with currentPlayer := move.player } :=
          placeStone_error_unchanged _ move.row move.col e l2 hres
        subst hl2
        exact ih
      | ok recaptured =>
        rw [redoMove_cons_ok g move rest recaptured l2 hh hres]
        exact place_ok_scores _ move.row move.col recaptured l2 hres ih.1 ih.2
  | @reset g hr ih => exact ⟨rfl, rfl⟩

/-- Claim C6 is false on the code: in the reachable position `c6StateC`
(Black captured one White stone and owns one point of recognised territory)
the live Black score is 3, not the claimed capture tally plus territory
(1 + 1 = 2) — `get_scores` adds both `black_score` and the capture tally,
double-counting captures; `get_final_scores` repeats the same sum. -/
theorem c6_live_score_counterexample :
    (getScores c6StateC).1 = 3 ∧
    (c6StateC.capturedBlack : Int) + ((calculateTerritories c6StateC).1 : Int)
      = 2 ∧
    (getScores c6StateC).1 ≠
      c6StateC.capturedBlack + ((calculateTerritories c6StateC).1 : Int) ∧
    (getFinalScores c6StateC (calculateTerritories c6StateC)).1 = 3 := by
  have h1 : c6StateC.blackScore = 1 := by decide
  have h2 : c6StateC.capturedBlack = 1 := by decide
  have h3 : (calculateTerritories c6StateC).1 = 1 := by decide
  refine ⟨by decide, by decide, by decide, ?_⟩
  unfold getFinalScores
  dsimp only
  rw [h1, h2, h3]
  norm_num

/-- Amended claim C6: in every reachable state, the live score per color is
twice that color's capture tally plus that color's current territory (the
captures are double-counted through the redundant `black_score`/`white_score`
fields), and the final score is exactly the live total with 6.5 added to
White and 0 to Black. -/
theorem c6_scores_amended (n : Nat) (g : GuiState) (h : Reachable n g) :
    getScores g.logic =
      (2 * g.logic.capturedBlack + ((calculateTerritories g.logic).1 : Int),
       2 * g.logic.capturedWhite + ((calculateTerritories g.logic).2 : Int)) ∧
    getFinalScores g.logic (calculateTerritories g.logic) =
      (((getScores g.logic).1 : ℚ), ((getScores g.logic).2 : ℚ) + 13 / 2) := by
  obtain ⟨hb, hw⟩ := reachable_scores n g h
  unfold getScores getFinalScores
  dsimp only
  constructor
  · rw [hb, hw]
    refine Prod.ext ?_ ?_ <;> dsimp only <;> ring
  · refine Prod.ext ?_ ?_ <;> dsimp only <;> push_cast <;> ring

/-- Witness for the amended C6 at the concrete reachable capture position. -/
theorem c6_scores_amended_witness :
    getScores c6StateC =
      (2 * c6StateC.capturedBlack + ((calculateTerritories c6StateC).1 : Int),
       2 * c6StateC.capturedWhite +
         ((calculateTerritories c6StateC).2 : Int)) ∧
    getFinalScores c6StateC (calculateTerritories c6StateC) =
      (((getScores c6StateC).1 : ℚ),
       ((getScores c6StateC).2 : ℚ) + 13 / 2) :=
  c6_scores_amended 3 _
    (@Reachable.place 3 _ _ 1 0
      (@Reachable.place 3 _ _ 0 0
        (@Reachable.place 3 _ _ 0 1 Reachable.init (by rfl)) (by rfl))
      (by rfl))

/-! ### Undo/redo round trip (claim C8) -/

/-- `undo_stone` exactly inverts an accepted `place_stone` when the pass
counter was zero (a placement resets it to zero, and undo does not touch
it). -/
theorem undo_inverts_place (s : GameState) (row col : Int)
    (cap : List (Int × Int)) (l1 : GameState)
    (hp : s.currentPlayer = 1 ∨ s.currentPlayer = -1)
    (hpc : s.passCount = 0)
    (h : placeStone s row col = (Except.ok cap, l1)) :
    undoStone l1 row col s.currentPlayer cap = s := by
  obtain ⟨h1, h2, h3, h4, hcap, hrec⟩ := placeStone_ok_elim s row col cap l1 h
  obtain ⟨hboard, hcolor, -⟩ := captureStones_basic s.boardSize s.currentPlayer
    (setCell s.board row col s.currentPlayer) row col hp
  have hpp : s.currentPlayer ≠ -s.currentPlayer := by
    rcases hp with hh | hh <;> rw [hh] <;> decide
  have hb1rc : setCell s.board row col s.currentPlayer row col =
      s.currentPlayer := by simp [setCell]
  have hcapcell : ∀ q ∈ cap, s.board q.1 q.2 = -s.currentPlayer := by
    intro q hq
    have hcl := hcolor q (hcap ▸ hq)
    have hqne : ¬(q.1 = row ∧ q.2 = col) := by
      intro hqe
      rw [setCell_apply, if_pos hqe, ← hb1rc, setCell_apply, if_pos ⟨rfl, rfl⟩]
        at hcl
      exact hpp hcl
    rw [setCell_apply, if_neg hqne] at hcl
    exact hcl
  subst hrec
  unfold undoStone
  refine GameState.ext rfl ?_ rfl ?_ ?_ ?_ rfl ?_ ?_ <;> dsimp only
  · -- board
    funext r c
    rw [restoreList_apply]
    by_cases hm : (r, c) ∈ cap
    · rw [if_pos hm]
      exact (hcapcell (r, c) hm).symm
    · rw [if_neg hm, setCell_apply]
      by_cases hrc : r = row ∧ c = col
      · rw [if_pos hrc]
        obtain ⟨hr, hc⟩ := hrc
        subst hr; subst hc
        exact h2.symm
      · rw [if_neg hrc, hboard r c, if_neg (hcap ▸ hm), setCell_apply,
          if_neg hrc]
  · -- passCount
    exact hpc.symm
  · -- blackScore
    rw [← hcap]
    by_cases hcp : s.currentPlayer = 1
    · rw [if_pos hcp, if_pos hcp]
      omega
    · rw [if_neg hcp, if_neg hcp]
  · -- whiteScore
    rw [← hcap]
    by_cases hcp : s.currentPlayer = 1
    · rw [if_pos hcp, if_pos hcp]
    · rw [if_neg hcp, if_neg hcp]
      omega
  · -- capturedBlack
    rw [← hcap]
    by_cases hcp : s.currentPlayer = 1
    · rw [if_pos hcp, if_pos hcp]
      omega
    · rw [if_neg hcp, if_neg hcp]
  · -- capturedWhite
    rw [← hcap]
    by_cases hcp : s.currentPlayer = 1
    · rw [if_pos hcp, if_pos hcp]
    · rw [if_neg hcp, if_neg hcp]
      omega

theorem applyMoves_history (ms : List (Int × Int)) :
    ∀ (g gf : GuiState), applyMoves g ms = some gf →
      ∃ pre, pre.length = ms.length ∧ gf.moveHistory = pre ++ g.moveHistory := by
  induction ms with
  | nil =>
    intro g gf h
    exact ⟨[], rfl, by rw [(Option.some.inj h).symm]; rfl⟩
  | cons m rest ih =>
    intro g gf h
    unfold applyMoves at h
    rcases hgp : guiPlaceStone g m.1 m.2 with _ | g1
    · rw [hgp] at h
      exact absurd h (by simp)
    · rw [hgp] at h
      obtain ⟨pre1, hlen1, hpre1⟩ := ih g1 gf h
      obtain ⟨cap, l1, heq, hrec⟩ := guiPlaceStone_elim g m.1 m.2 g1 hgp
      refine ⟨pre1 ++
        [{ row := m.1, col := m.2, player := -l1.currentPlayer,
           captured := cap }], ?_, ?_⟩
      · rw [List.length_append, hlen1, List.length_cons]
        simp
      · rw [hpre1, hrec]
        simp

theorem applyMoves_clean (ms : List (Int × Int)) :
    ∀ (g gf : GuiState), CleanLogic g.logic → applyMoves g ms = some gf →
      CleanLogic gf.logic := by
  induction ms with
  | nil =>
    intro g gf hc h
    rw [(Option.some.inj h).symm]
    exact hc
  | cons m rest ih =>
    intro g gf hc h
    unfold applyMoves at h
    rcases hgp : guiPlaceStone g m.1 m.2 with _ | g1
    · rw [hgp] at h
      exact absurd h (by simp)
    · rw [hgp] at h
      refine ih g1 gf ?_ h
      obtain ⟨cap, l1, heq, hrec⟩ := guiPlaceStone_elim g m.1 m.2 g1 hgp
      obtain ⟨-, -, -, -, -, hstate⟩ := placeStone_ok_elim g.logic m.1 m.2 cap
        l1 heq
      rw [hrec]
      refine ⟨by rw [hstate], ?_⟩
      rw [hstate]
      rcases hc.2 with hh | hh
      · right
        show -g.logic.currentPlayer = -1
        rw [hh]
      · left
        show -g.logic.currentPlayer = 1
        rw [hh]
        decide

theorem applyMoves_redoStack (ms : List (Int × Int)) :
    ∀ (g gf : GuiState), g.redoStack = [] → applyMoves g ms = some gf →
      gf.redoStack = [] := by
  induction ms with
  | nil =>
    intro g gf hr h
    rw [(Option.some.inj h).symm]
    exact hr
  | cons m rest ih =>
    intro g gf hr h
    unfold applyMoves at h
    rcases hgp : guiPlaceStone g m.1 m.2 with _ | g1
    · rw [hgp] at h
      exact absurd h (by simp)
    · rw [hgp] at h
      refine ih g1 gf ?_ h
      obtain ⟨cap, l1, heq, hrec⟩ := guiPlaceStone_elim g m.1 m.2 g1 hgp
      rw [hrec]

/-- Undoing right after an accepted GUI placement restores the previous
window state, except that the undone move is pushed on the redo stack. -/
theorem undo_guiPlace (g g1 : GuiState) (row col : Int) (L : List MoveRec)
    (hp : g.logic.currentPlayer = 1 ∨ g.logic.currentPlayer = -1)
    (hpc : g.logic.passCount = 0)
    (h : guiPlaceStone g row col = some g1) :
    ∃ rec, g1.moveHistory = rec :: g.moveHistory ∧
      undoMove { g1 with redoStack := L } = { g with redoStack := rec :: L } := by
  obtain ⟨cap, l1, heq, hrec⟩ := guiPlaceStone_elim g row col g1 h
  have hcp : l1.currentPlayer = -g.logic.currentPlayer := by
    obtain ⟨-, -, -, -, -, hstate⟩ := placeStone_ok_elim g.logic row col cap
      l1 heq
    rw [hstate]
  refine ⟨{ row := row, col := col, player := -l1.currentPlayer,
            captured := cap }, by rw [hrec], ?_⟩
  rw [undoMove_cons _ _ _ (by rw [hrec])]
  have hplayer : -l1.currentPlayer = g.logic.currentPlayer := by
    rw [hcp, neg_neg]
  refine GuiState.ext ?_ rfl rfl
  show undoStone { g1 with redoStack := L }.logic row col
    (-l1.currentPlayer) cap = g.logic
  have hlg : { g1 with redoStack := L }.logic = l1 := by rw [hrec]
  rw [hlg, hplayer]
  exact undo_inverts_place g.logic row col cap l1 hp hpc heq

/-- Undoing N times after N accepted placements restores the starting window
with the undone moves stacked (most recent play first) on the redo stack. -/
theorem undo_iterate (ms : List (Int × Int)) :
    ∀ (g gf : GuiState), CleanLogic g.logic → applyMoves g ms = some gf →
      ∀ L, ∃ pre, pre.length = ms.length ∧
        gf.moveHistory = pre ++ g.moveHistory ∧
        undoMove^[ms.length] { gf with redoStack := L } =
          { g with redoStack := pre.reverse ++ L } := by
  induction ms with
  | nil =>
    intro g gf hc h L
    rw [(Option.some.inj h).symm]
    exact ⟨[], rfl, rfl, rfl⟩
  | cons m rest ih =>
    intro g gf hc h L
    unfold applyMoves at h
    rcases hgp : guiPlaceStone g m.1 m.2 with _ | g1
    · rw [hgp] at h
      exact absurd h (by simp)
    · rw [hgp] at h
      obtain ⟨cap, l1, heq, hrec⟩ := guiPlaceStone_elim g m.1 m.2 g1 hgp
      have hc1 : CleanLogic g1.logic := by
        obtain ⟨-, -, -, -, -, hstate⟩ := placeStone_ok_elim g.logic m.1 m.2
          cap l1 heq
        rw [hrec]
        refine ⟨by rw [hstate], ?_⟩
        rw [hstate]
        rcases hc.2 with hh | hh
        · right
          show -g.logic.currentPlayer = -1
          rw [hh]
        · left
          show -g.logic.currentPlayer = 1
          rw [hh]
          decide
      obtain ⟨pre1, hlen1, hpre1, hiter⟩ := ih g1 gf hc1 h L
      obtain ⟨rec, hrec1, hundo⟩ := undo_guiPlace g g1 m.1 m.2
        (pre1.reverse ++ L) hc.2 hc.1 hgp
      refine ⟨pre1 ++ [rec], by simp [hlen1], ?_, ?_⟩
      · rw [hpre1, hrec1]
        simp
      · rw [List.length_cons, Function.iterate_succ_apply', hiter, hundo]
        simp

theorem EngineAgrees.rfl (a : GameState) : EngineAgrees a a :=
  ⟨Eq.refl _, Eq.refl _, Eq.refl _, Eq.refl _, Eq.refl _, Eq.refl _,
   Eq.refl _, Eq.refl _⟩

theorem EngineAgrees.to_eq (a b : GameState) (h : EngineAgrees a b)
    (hcp : a.currentPlayer = b.currentPlayer) : a = b := by
  obtain ⟨h1, h2, h3, h4, h5, h6, h7, h8⟩ := h
  exact GameState.ext h1 h2 hcp h3 h4 h5 h6 h7 h8

theorem EngineAgrees.update (a b : GameState) (x : Int)
    (h : EngineAgrees a b) :
    EngineAgrees { a with currentPlayer := x } b := h

/-- Redoing N times replays the same N placements: the resulting engine state
agrees with the state after the original N placements on every field except
the current player (which `redo_move` always restores to its pre-redo
value). -/
theorem redo_iterate (ms : List (Int × Int)) :
    ∀ (g gf h : GuiState) (pre L : List MoveRec),
      CleanLogic g.logic → applyMoves g ms = some gf →
      gf.moveHistory = pre ++ g.moveHistory → pre.length = ms.length →
      EngineAgrees h.logic g.logic →
      h.redoStack = pre.reverse ++ L →
      EngineAgrees (redoMove^[ms.length] h).logic gf.logic ∧
      (redoMove^[ms.length] h).redoStack = L ∧
      (redoMove^[ms.length] h).moveHistory = pre ++ h.moveHistory := by
  induction ms with
  | nil =>
    intro g gf h pre L hc happ hpre hlen hag hstack
    have hpre0 : pre = [] := List.length_eq_zero.mp hlen
    subst hpre0
    rw [(Option.some.inj happ).symm]
    exact ⟨hag, by simpa using hstack, rfl⟩
  | cons m rest ih =>
    intro g gf h pre L hc happ hpre hlen hag hstack
    unfold applyMoves at happ
    rcases hgp : guiPlaceStone g m.1 m.2 with _ | g1
    · rw [hgp] at happ
      exact absurd happ (by simp)
    · rw [hgp] at happ
      obtain ⟨cap, lg1, heq, hrecg1⟩ := guiPlaceStone_elim g m.1 m.2 g1 hgp
      have hlg1cp : lg1.currentPlayer = -g.logic.currentPlayer := by
        obtain ⟨-, -, -, -, -, hstate⟩ := placeStone_ok_elim g.logic m.1 m.2
          cap lg1 heq
        rw [hstate]
      obtain ⟨pre1, hlen1, hpre1⟩ := applyMoves_history rest g1 gf happ
      have hg1mh : g1.moveHistory =
          { row := m.1, col := m.2, player := -lg1.currentPlayer,
            captured := cap } :: g.moveHistory := by rw [hrecg1]
      have hpre2 : pre = pre1 ++
          [{ row := m.1, col := m.2, player := -lg1.currentPlayer,
             captured := cap }] := by
        apply List.append_cancel_right
        rw [← hpre, hpre1, hg1mh]
        simp
      -- one redo step
      have hmvplayer : -lg1.currentPlayer = g.logic.currentPlayer := by
        rw [hlg1cp, neg_neg]
      have hstack1 : h.redoStack =
          { row := m.1, col := m.2, player := -lg1.currentPlayer,
            captured := cap } :: (pre1.reverse ++ L) := by
        rw [hstack, hpre2]
        simp
      have hl1eq : { h.logic with currentPlayer := -lg1.currentPlayer } =
          g.logic := by
        refine EngineAgrees.to_eq _ _ (EngineAgrees.update _ _ _ hag) ?_
        exact hmvplayer
      have hplace1 : placeStone
          { h.logic with currentPlayer := -lg1.currentPlayer } m.1 m.2 =
          (Except.ok cap, lg1) := by
        rw [hl1eq]
        exact heq
      have hredo1 : redoMove h =
          { logic := { lg1 with currentPlayer := h.logic.currentPlayer },
            moveHistory :=
              { row := m.1, col := m.2, player := -lg1.currentPlayer,
                captured := cap } :: h.moveHistory,
            redoStack := pre1.reverse ++ L } := by
        exact redoMove_cons_ok h _ _ cap lg1 hstack1 hplace1
      have hc1 : CleanLogic g1.logic := by
        obtain ⟨-, -, -, -, -, hstate⟩ := placeStone_ok_elim g.logic m.1 m.2
          cap lg1 heq
        rw [hrecg1]
        refine ⟨by rw [hstate], ?_⟩
        rw [hstate]
        rcases hc.2 with hh | hh
        · right
          show -g.logic.currentPlayer = -1
          rw [hh]
        · left
          show -g.logic.currentPlayer = 1
          rw [hh]
          decide
      have hag1 : EngineAgrees (redoMove h).logic g1.logic := by
        rw [hredo1, hrecg1]
        exact EngineAgrees.update lg1 lg1 h.logic.currentPlayer
          (EngineAgrees.rfl lg1)
      have hstep := ih g1 gf (redoMove h) pre1 L hc1 happ
        (by rw [hpre1]) hlen1 hag1 (by rw [hredo1])
      rw [List.length_cons, Function.iterate_succ_apply]
      refine ⟨hstep.1, hstep.2.1, ?_⟩
      rw [hstep.2.2, hredo1, hpre2]
      simp

/-- Claim C8: for every sequence of accepted placements from a fresh window,
N undos restore the empty initial board, and N redos (with no intervening
moves) restore exactly the board and both capture tallies that held after
the original placements. -/
theorem c8_undo_redo_roundtrip (n : Nat) (ms : List (Int × Int))
    (gf : GuiState) (h : applyMoves (initGui n) ms = some gf) :
    (undoMove^[ms.length] gf).logic.board = (fun _ _ => 0) ∧
    (redoMove^[ms.length] (undoMove^[ms.length] gf)).logic.board =
      gf.logic.board ∧
    (redoMove^[ms.length] (undoMove^[ms.length] gf)).logic.capturedBlack =
      gf.logic.capturedBlack ∧
    (redoMove^[ms.length] (undoMove^[ms.length] gf)).logic.capturedWhite =
      gf.logic.capturedWhite := by
  have hclean : CleanLogic (initGui n).logic := ⟨rfl, Or.inl rfl⟩
  have hrs : gf.redoStack = [] := applyMoves_redoStack ms (initGui n) gf rfl h
  obtain ⟨pre, hlen, hpre, hiter⟩ := undo_iterate ms (initGui n) gf hclean h []
  have hgf : { gf with redoStack := ([] : List MoveRec) } = gf := by
    rw [← hrs]
  rw [hgf] at hiter
  have hboard0 : (undoMove^[ms.length] gf).logic.board = (fun _ _ => 0) := by
    rw [hiter]
    rfl
  have hagrees : EngineAgrees (undoMove^[ms.length] gf).logic
      (initGui n).logic := by
    rw [hiter]
    exact EngineAgrees.rfl _
  have hstack : (undoMove^[ms.length] gf).redoStack = pre.reverse ++ [] := by
    rw [hiter]
  obtain ⟨hag2, -, -⟩ := redo_iterate ms (initGui n) gf
    (undoMove^[ms.length] gf) pre [] hclean h hpre hlen hagrees hstack
  obtain ⟨hsz, hbd, hpc2, hbs, hws, hpv, hcb, hcw⟩ := hag2
  exact ⟨hboard0, hbd, hcb, hcw⟩

/-- Witness for C8: one accepted move on a fresh 2×2 window, then one undo
and one redo. -/
theorem c8_undo_redo_roundtrip_witness :
    applyMoves (initGui 2) [(0, 0)] = some c8Game ∧
    ((undoMove^[1] c8Game).logic.board = (fun _ _ => 0) ∧
     (redoMove^[1] (undoMove^[1] c8Game)).logic.board = c8Game.logic.board ∧
     (redoMove^[1] (undoMove^[1] c8Game)).logic.capturedBlack =
       c8Game.logic.capturedBlack ∧
     (redoMove^[1] (undoMove^[1] c8Game)).logic.capturedWhite =
       c8Game.logic.capturedWhite) :=
  ⟨by rfl, c8_undo_redo_roundtrip 2 [(0, 0)] c8Game (by rfl)⟩

/-! ### Geometry of the neighbor lists -/

theorem mem_getNeighbors_iff (n : Nat) (row col : Int) (p : Int × Int) :
    p ∈ getNeighbors n row col ↔
      ((0 < row ∧ p = (row - 1, col)) ∨
       (row < (n : Int) - 1 ∧ p = (row + 1, col)) ∨
       (0 < col ∧ p = (row, col - 1)) ∨
       (col < (n : Int) - 1 ∧ p = (row, col + 1))) := by
  unfold getNeighbors
  simp [List.mem_append, List.mem_ite_nil_right]

theorem getNeighbors_inBounds (n : Nat) (row col : Int)
    (h : inBoundsP n row col) :
    ∀ p ∈ getNeighbors n row col, inBoundsP n p.1 p.2 := by
  intro p hp
  obtain ⟨h1, h2, h3, h4⟩ := h
  rcases (mem_getNeighbors_iff n row col p).mp hp with
    ⟨hh, he⟩ | ⟨hh, he⟩ | ⟨hh, he⟩ | ⟨hh, he⟩ <;> subst he <;>
    exact ⟨by omega, by omega, by omega, by omega⟩

theorem getNeighbors_ne_self (n : Nat) (row col : Int) :
    ∀ p ∈ getNeighbors n row col, p ≠ (row, col) := by
  intro p hp he
  rcases (mem_getNeighbors_iff n row col p).mp hp with
    ⟨hh, h⟩ | ⟨hh, h⟩ | ⟨hh, h⟩ | ⟨hh, h⟩ <;> rw [h] at he <;>
    · rw [Prod.ext_iff] at he
      omega

theorem getNeighbors_symm (n : Nat) (row col : Int)
    (h : inBoundsP n row col) :
    ∀ p ∈ getNeighbors n row col, (row, col) ∈ getNeighbors n p.1 p.2 := by
  intro p hp
  obtain ⟨h1, h2, h3, h4⟩ := h
  rcases (mem_getNeighbors_iff n row col p).mp hp with
    ⟨hh, he⟩ | ⟨hh, he⟩ | ⟨hh, he⟩ | ⟨hh, he⟩ <;> subst he <;>
    rw [mem_getNeighbors_iff] <;> simp [Prod.ext_iff] <;> omega

/-! ### Reachability lemmas -/

theorem reachAvoid_mono (n : Nat) (b : Int → Int → Int) (col : Int)
    (V W : List (Int × Int)) (hVW : ∀ x, x ∈ V → x ∈ W)
    (p q : Int × Int) (h : reachAvoid n b col W p q) :
    reachAvoid n b col V p q := by
  refine Relation.ReflTransGen.mono ?_ h
  rintro a c ⟨hs, hc⟩
  exact ⟨hs, fun hmem => hc (hVW c hmem)⟩

theorem reachAvoid_tail (n : Nat) (b : Int → Int → Int) (col : Int)
    (V : List (Int × Int)) (p m q : Int × Int)
    (h : reachAvoid n b col V p m) (hs : stepColor n b col m q)
    (hq : q ∉ V) : reachAvoid n b col V p q :=
  Relation.ReflTransGen.tail h ⟨hs, hq⟩

theorem reachAvoid_trans (n : Nat) (b : Int → Int → Int) (col : Int)
    (V : List (Int × Int)) (p m q : Int × Int)
    (h1 : reachAvoid n b col V p m) (h2 : reachAvoid n b col V m q) :
    reachAvoid n b col V p q :=
  Relation.ReflTransGen.trans h1 h2

theorem reachAvoid_color (n : Nat) (b : Int → Int → Int) (col : Int)
    (V : List (Int × Int)) (p q : Int × Int)
    (h : reachAvoid n b col V p q) : q = p ∨ b q.1 q.2 = col := by
  induction h with
  | refl => exact Or.inl rfl
  | tail h1 h2 ih => exact Or.inr h2.1.2

theorem reachAvoid_avoid (n : Nat) (b : Int → Int → Int) (col : Int)
    (V : List (Int × Int)) (p q : Int × Int)
    (h : reachAvoid n b col V p q) : q = p ∨ q ∉ V := by
  induction h with
  | refl => exact Or.inl rfl
  | tail h1 h2 ih => exact Or.inr h2.2

theorem reachAvoid_inBounds (n : Nat) (b : Int → Int → Int) (col : Int)
    (V : List (Int × Int)) (p q : Int × Int)
    (hin : inBoundsP n p.1 p.2) (h : reachAvoid n b col V p q) :
    inBoundsP n q.1 q.2 := by
  induction h with
  | refl => exact hin
  | tail h1 h2 ih => exact getNeighbors_inBounds n _ _ ih _ h2.1.1

/-- Absorption: a path that avoids `V` either ends inside a set `T` that is
closed under `V`-avoiding steps, or it can be rerouted to avoid all of `T`. -/
theorem reachAvoid_split (n : Nat) (b : Int → Int → Int) (col : Int)
    (V T : List (Int × Int)) (p q : Int × Int) (hp : p ∉ V)
    (hT : ∀ a, a ∈ T → a ∉ V → ∀ c', stepColor n b col a c' → c' ∉ V →
      c' ∈ T)
    (h : reachAvoid n b col V p q) : q ∈ T ∨ reachAvoid n b col T p q := by
  induction h with
  | refl => exact Or.inr Relation.ReflTransGen.refl
  | @tail m c' h1 h2 ih =>
    have hmV : m ∉ V := by
      rcases reachAvoid_avoid n b col V p m h1 with hh | hh
      · rw [hh]; exact hp
      · exact hh
    rcases ih with hmT | hreach
    · exact Or.inl (hT m hmT hmV c' h2.1 h2.2)
    · by_cases hcT : c' ∈ T
      · exact Or.inl hcT
      · exact Or.inr (Relation.ReflTransGen.tail hreach ⟨h2.1, hcT⟩)

/-- Decomposition of avoidance reachability at its seed: a reachable cell is
the seed itself or is reachable, additionally avoiding the seed, from a
same-colored neighbor of the seed. -/
theorem reachAvoid_decompose (n : Nat) (b : Int → Int → Int) (col : Int)
    (V : List (Int × Int)) (s q : Int × Int) (hs : s ∉ V) :
    reachAvoid n b col V s q ↔
      (q = s ∨ ∃ p ∈ getNeighbors n s.1 s.2,
        b p.1 p.2 = col ∧ p ∉ (s :: V) ∧ reachAvoid n b col (s :: V) p q) := by
  constructor
  · intro h
    induction h with
    | refl => exact Or.inl rfl
    | @tail m c' h1 h2 ih =>
      by_cases hcs : c' = s
      · exact Or.inl hcs
      · have hcV : c' ∉ (s :: V) := by
          intro hmem
          rcases List.mem_cons.mp hmem with hh | hh
          · exact hcs hh
          · exact h2.2 hh
        rcases ih with hms | ⟨p, hpmem, hpcol, hpV, hpreach⟩
        · subst hms
          exact Or.inr ⟨c', h2.1.1, h2.1.2, hcV, Relation.ReflTransGen.refl⟩
        · exact Or.inr ⟨p, hpmem, hpcol, hpV,
            Relation.ReflTransGen.tail hpreach ⟨h2.1, hcV⟩⟩
  · intro h
    rcases h with hqs | ⟨p, hpmem, hpcol, hpV, hpreach⟩
    · rw [hqs]
      exact Relation.ReflTransGen.refl
    · have hstep : reachAvoid n b col V s p :=
        Relation.ReflTransGen.single
          ⟨⟨hpmem, hpcol⟩, fun hmem => hpV (List.mem_cons_of_mem s hmem)⟩
      exact reachAvoid_trans n b col V s p q hstep
        (reachAvoid_mono n b col V (s :: V)
          (fun x hx => List.mem_cons_of_mem s hx) p q hpreach)

/-! ### The unvisited-cell measure -/

theorem mem_cellsF (n : Nat) (p : Int × Int) :
    p ∈ cellsF n ↔ inBoundsP n p.1 p.2 := by
  unfold cellsF inBoundsP
  rw [Finset.mem_product, Finset.mem_Icc, Finset.mem_Icc]
  omega

theorem unvisited_cons_lt (n : Nat) (V : List (Int × Int)) (s : Int × Int)
    (hin : inBoundsP n s.1 s.2) (hs : s ∉ V) :
    unvisited n (s :: V) < unvisited n V := by
  unfold unvisited
  have h1 : cellsF n \ (s :: V).toFinset = (cellsF n \ V.toFinset).erase s := by
    rw [List.toFinset_cons]
    ext x
    simp only [Finset.mem_sdiff, Finset.mem_insert, Finset.mem_erase]
    tauto
  rw [h1]
  have hmem : s ∈ cellsF n \ V.toFinset := by
    rw [Finset.mem_sdiff, mem_cellsF]
    exact ⟨hin, by simpa using hs⟩
  have := Finset.card_erase_of_mem hmem
  have hpos : 0 < (cellsF n \ V.toFinset).card := Finset.card_pos.mpr ⟨s, hmem⟩
  omega

theorem unvisited_le_of_subset (n : Nat) (V W : List (Int × Int))
    (h : ∀ x, x ∈ V → x ∈ W) : unvisited n W ≤ unvisited n V := by
  unfold unvisited
  refine Finset.card_le_card ?_
  intro x hx
  rw [Finset.mem_sdiff] at hx ⊢
  refine ⟨hx.1, fun hmem => hx.2 ?_⟩
  rw [List.mem_toFinset] at hmem ⊢
  exact h x hmem

/-- Fold induction that also tracks the processed prefix of the list. -/
theorem foldl_induction_prefix {α β : Type} (P : List α → β → Prop)
    (f : β → α → β) (L : List α) :
    ∀ (Lp : List α) (init : β), P Lp init →
      (∀ Mp acc x, x ∈ L → P Mp acc → P (Mp ++ [x]) (f acc x)) →
      P (Lp ++ L) (L.foldl f init) := by
  induction L with
  | nil =>
    intro Lp init h0 _
    simpa using h0
  | cons x xs ih =>
    intro Lp init h0 hstep
    rw [List.foldl_cons, show Lp ++ x :: xs = (Lp ++ [x]) ++ xs by simp]
    exact ih (Lp ++ [x]) (f init x)
      (hstep Lp init x (List.mem_cons_self x xs) h0)
      (fun Mp acc y hy => hstep Mp acc y (List.mem_cons_of_mem x hy))

/-- Functional correctness of the `count_liberties` DFS, with enough fuel:
the visited set it returns is characterized by avoidance reachability from
the seed, and its liberty count is zero exactly when no reachable stone of
the seed's group touches an empty cell. -/
theorem countLiberties_spec (n : Nat) (b : Int → Int → Int) :
    ∀ (fuel : Nat) (V : List (Int × Int)) (row col : Int),
      inBoundsP n row col → b row col ≠ 0 → (row, col) ∉ V →
      unvisited n V < fuel →
      ((∀ q, q ∈ (countLiberties n b fuel row col V).2 ↔
          q ∈ V ∨ reachAvoid n b (b row col) V (row, col) q) ∧
       ((countLiberties n b fuel row col V).1 = 0 ↔
          ∀ q, reachAvoid n b (b row col) V (row, col) q →
            noEmptyNbr n b q)) := by
  intro fuel
  induction fuel with
  | zero =>
    intro V row col hin hcol hnv hfuel
    exact absurd hfuel (by omega)
  | succ fuel ih =>
    intro V row col hin hcol hnv hfuel
    have hfold := foldl_induction_prefix
      (fun Lp acc =>
        (∀ p, p ∈ Lp → p ∈ getNeighbors n row col) ∧
        (∀ q, q ∈ acc.2 ↔ q ∈ ((row, col) :: V) ∨
          ∃ p ∈ Lp, b p.1 p.2 = b row col ∧ p ∉ ((row, col) :: V) ∧
            reachAvoid n b (b row col) ((row, col) :: V) p q) ∧
        (acc.1 = 0 ↔
          (∀ p ∈ Lp, b p.1 p.2 ≠ 0) ∧
          (∀ p ∈ Lp, b p.1 p.2 = b row col → p ∉ ((row, col) :: V) →
            ∀ q, reachAvoid n b (b row col) ((row, col) :: V) p q →
              noEmptyNbr n b q)))
      (fun acc p =>
        if b p.1 p.2 = 0 then (acc.1 + 1, acc.2)
        else if b p.1 p.2 = b row col then
          let r := countLiberties n b fuel p.1 p.2 acc.2
          (acc.1 + r.1, r.2)
        else acc)
      (getNeighbors n row col) [] (0, (row, col) :: V)
      ⟨by simp, by simp, by simp⟩ ?step
    case step =>
      rintro Mp acc x hxL ⟨hSUB, hMEM, hCNT⟩
      have hSUB' : ∀ p, p ∈ Mp ++ [x] → p ∈ getNeighbors n row col := by
        intro p hp
        rcases List.mem_append.mp hp with h | h
        · exact hSUB p h
        · rw [List.mem_singleton] at h
          rw [h]
          exact hxL
      have hsV_sub : ∀ y, y ∈ (row, col) :: V → y ∈ acc.2 :=
        fun y hy => (hMEM y).mpr (Or.inl hy)
      by_cases hx0 : b x.1 x.2 = 0
      · have hxcol : ¬b x.1 x.2 = b row col := by
          rw [hx0]
          exact fun hh => hcol hh.symm
        refine ⟨hSUB', ?_, ?_⟩
        · intro q
          dsimp only
          rw [if_pos hx0]
          rw [hMEM q]
          constructor
          · rintro (h | ⟨p, hp, hpc, hpv, hpr⟩)
            · exact Or.inl h
            · exact Or.inr ⟨p, List.mem_append_left _ hp, hpc, hpv, hpr⟩
          · rintro (h | ⟨p, hp, hpc, hpv, hpr⟩)
            · exact Or.inl h
            · rcases List.mem_append.mp hp with h1 | h1
              · exact Or.inr ⟨p, h1, hpc, hpv, hpr⟩
              · rw [List.mem_singleton] at h1
                subst h1
                exact absurd hpc hxcol
        · dsimp only
          rw [if_pos hx0]
          constructor
          · intro hh
            exact absurd hh (Nat.succ_ne_zero acc.1)
          · rintro ⟨hall, -⟩
            exact absurd hx0
              (hall x (List.mem_append_right _ (List.mem_singleton_self x)))
      · by_cases hxc : b x.1 x.2 = b row col
        · by_cases hxv : x ∈ acc.2
          · -- neighbor already visited: the recursive call is a no-op
            have hsub : countLiberties n b fuel x.1 x.2 acc.2 = (0, acc.2) :=
              countLiberties_visited_mem n b fuel x.1 x.2 acc.2
                (by simpa using hxv)
            have habsorb : ∀ q, x ∉ ((row, col) :: V) →
                reachAvoid n b (b row col) ((row, col) :: V) x q →
                q ∈ acc.2 := by
              intro q hxnv hq
              rcases (hMEM x).mp hxv with h1 | ⟨p0, hp0, h0c, h0v, h0r⟩
              · exact absurd h1 hxnv
              · exact (hMEM q).mpr (Or.inr ⟨p0, hp0, h0c, h0v,
                  reachAvoid_trans n b _ _ p0 x q h0r hq⟩)
            have hnoempty : ∀ q, x ∉ ((row, col) :: V) →
                reachAvoid n b (b row col) ((row, col) :: V) x q →
                ((∀ p ∈ Mp, b p.1 p.2 = b row col → p ∉ ((row, col) :: V) →
                  ∀ q2, reachAvoid n b (b row col) ((row, col) :: V) p q2 →
                    noEmptyNbr n b q2) →
                noEmptyNbr n b q) := by
              intro q hxnv hq h2
              rcases (hMEM x).mp hxv with h1 | ⟨p0, hp0, h0c, h0v, h0r⟩
              · exact absurd h1 hxnv
              · exact h2 p0 hp0 h0c h0v q
                  (reachAvoid_trans n b _ _ p0 x q h0r hq)
            refine ⟨hSUB', ?_, ?_⟩
            · intro q
              dsimp only
              rw [if_neg hx0, if_pos hxc]
              dsimp only
              rw [hsub]
              dsimp only
              rw [hMEM q]
              constructor
              · rintro (h | ⟨p, hp, hpc, hpv, hpr⟩)
                · exact Or.inl h
                · exact Or.inr ⟨p, List.mem_append_left _ hp, hpc, hpv, hpr⟩
              · rintro (h | ⟨p, hp, hpc, hpv, hpr⟩)
                · exact Or.inl h
                · rcases List.mem_append.mp hp with h1 | h1
                  · exact Or.inr ⟨p, h1, hpc, hpv, hpr⟩
                  · rw [List.mem_singleton] at h1
                    subst h1
                    rw [← hMEM q]
                    exact habsorb q hpv hpr
            · dsimp only
              rw [if_neg hx0, if_pos hxc]
              dsimp only
              rw [hsub]
              dsimp only
              rw [Nat.add_zero, hCNT]
              constructor
              · rintro ⟨h1, h2⟩
                refine ⟨?_, ?_⟩
                · intro p hp
                  rcases List.mem_append.mp hp with hm | hm
                  · exact h1 p hm
                  · rw [List.mem_singleton] at hm
                    subst hm
                    rw [hxc]
                    exact hcol
                · intro p hp hpc hpv q hq
                  rcases List.mem_append.mp hp with hm | hm
                  · exact h2 p hm hpc hpv q hq
                  · rw [List.mem_singleton] at hm
                    subst hm
                    exact hnoempty q hpv hq h2
              · rintro ⟨h1, h2⟩
                exact ⟨fun p hp => h1 p (List.mem_append_left _ hp),
                  fun p hp hpc hpv q hq =>
                    h2 p (List.mem_append_left _ hp) hpc hpv q hq⟩
          · -- fresh neighbor: a genuine recursive exploration
            have hxin : inBoundsP n x.1 x.2 :=
              getNeighbors_inBounds n row col hin x hxL
            have hfuel2 : unvisited n acc.2 < fuel := by
              have ha := unvisited_le_of_subset n ((row, col) :: V) acc.2
                hsV_sub
              have hb2 := unvisited_cons_lt n V (row, col) hin hnv
              omega
            have hxv' : (x.1, x.2) ∉ acc.2 := by simpa using hxv
            obtain ⟨hMEMx, hCNTx⟩ := ih acc.2 x.1 x.2 hxin hx0 hxv' hfuel2
            rw [hxc] at hMEMx hCNTx
            have hxnotV : x ∉ (row, col) :: V :=
              fun hmem => hxv (hsV_sub x hmem)
            have hclosed : ∀ a, a ∈ acc.2 → a ∉ ((row, col) :: V) →
                ∀ c', stepColor n b (b row col) a c' →
                  c' ∉ ((row, col) :: V) → c' ∈ acc.2 := by
              intro a ha hav c' hstep hcv
              rcases (hMEM a).mp ha with h1 | ⟨p0, hp0, h0c, h0v, h0r⟩
              · exact absurd h1 hav
              · exact (hMEM c').mpr (Or.inr ⟨p0, hp0, h0c, h0v,
                  reachAvoid_tail n b _ _ p0 a c' h0r hstep hcv⟩)
            refine ⟨hSUB', ?_, ?_⟩
            · intro q
              dsimp only
              rw [if_neg hx0, if_pos hxc]
              dsimp only
              rw [hMEMx q]
              constructor
              · rintro (hq | hq)
                · rcases (hMEM q).mp hq with h1 | ⟨p, hp, hpc, hpv, hpr⟩
                  · exact Or.inl h1
                  · exact Or.inr ⟨p, List.mem_append_left _ hp, hpc, hpv, hpr⟩
                · refine Or.inr ⟨x,
                    List.mem_append_right _ (List.mem_singleton_self x),
                    hxc, hxnotV, ?_⟩
                  exact reachAvoid_mono n b (b row col) ((row, col) :: V)
                    acc.2 hsV_sub (x.1, x.2) q hq
              · rintro (hq | ⟨p, hp, hpc, hpv, hpr⟩)
                · exact Or.inl ((hMEM q).mpr (Or.inl hq))
                · rcases List.mem_append.mp hp with h1 | h1
                  · exact Or.inl ((hMEM q).mpr (Or.inr ⟨p, h1, hpc, hpv, hpr⟩))
                  · rw [List.mem_singleton] at h1
                    subst h1
                    rcases reachAvoid_split n b (b row col) ((row, col) :: V)
                      acc.2 p q hxnotV hclosed hpr with h2 | h2
                    · exact Or.inl h2
                    · exact Or.inr h2
            · dsimp only
              rw [if_neg hx0, if_pos hxc]
              dsimp only
              rw [Nat.add_eq_zero, hCNT, hCNTx]
              constructor
              · rintro ⟨⟨h1, h2⟩, h3⟩
                refine ⟨?_, ?_⟩
                · intro p hp
                  rcases List.mem_append.mp hp with hm | hm
                  · exact h1 p hm
                  · rw [List.mem_singleton] at hm
                    subst hm
                    rw [hxc]
                    exact hcol
                · intro p hp hpc hpv q hq
                  rcases List.mem_append.mp hp with hm | hm
                  · exact h2 p hm hpc hpv q hq
                  · rw [List.mem_singleton] at hm
                    subst hm
                    rcases reachAvoid_split n b (b row col) ((row, col) :: V)
                      acc.2 p q hxnotV hclosed hq with hs2 | hs2
                    · rcases (hMEM q).mp hs2 with hq1 | ⟨p0, hp0, h0c, h0v, h0r⟩
                      · rcases reachAvoid_avoid n b (b row col)
                          ((row, col) :: V) p q hq with hq2 | hq2
                        · subst hq2
                          exact absurd hs2 hxv
                        · exact absurd hq1 hq2
                      · exact h2 p0 hp0 h0c h0v q h0r
                    · exact h3 q hs2
              · rintro ⟨h1, h2⟩
                refine ⟨⟨fun p hp => h1 p (List.mem_append_left _ hp),
                  fun p hp hpc hpv q hq =>
                    h2 p (List.mem_append_left _ hp) hpc hpv q hq⟩, ?_⟩
                intro q hq
                refine h2 x
                  (List.mem_append_right _ (List.mem_singleton_self x))
                  hxc hxnotV q ?_
                exact reachAvoid_mono n b (b row col) ((row, col) :: V) acc.2
                  hsV_sub (x.1, x.2) q hq
        · -- opponent-colored neighbor: ignored by the traversal
          refine ⟨hSUB', ?_, ?_⟩
          · intro q
            dsimp only
            rw [if_neg hx0, if_neg hxc]
            rw [hMEM q]
            constructor
            · rintro (h | ⟨p, hp, hpc, hpv, hpr⟩)
              · exact Or.inl h
              · exact Or.inr ⟨p, List.mem_append_left _ hp, hpc, hpv, hpr⟩
            · rintro (h | ⟨p, hp, hpc, hpv, hpr⟩)
              · exact Or.inl h
              · rcases List.mem_append.mp hp with h1 | h1
                · exact Or.inr ⟨p, h1, hpc, hpv, hpr⟩
                · rw [List.mem_singleton] at h1
                  subst h1
                  exact absurd hpc hxc
          · dsimp only
            rw [if_neg hx0, if_neg hxc]
            rw [hCNT]
            constructor
            · rintro ⟨h1, h2⟩
              refine ⟨?_, ?_⟩
              · intro p hp
                rcases List.mem_append.mp hp with hm | hm
                · exact h1 p hm
                · rw [List.mem_singleton] at hm
                  subst hm
                  exact hx0
              · intro p hp hpc hpv q hq
                rcases List.mem_append.mp hp with hm | hm
                · exact h2 p hm hpc hpv q hq
                · rw [List.mem_singleton] at hm
                  subst hm
                  exact absurd hpc hxc
            · rintro ⟨h1, h2⟩
              exact ⟨fun p hp => h1 p (List.mem_append_left _ hp),
                fun p hp hpc hpv q hq =>
                  h2 p (List.mem_append_left _ hp) hpc hpv q hq⟩
    -- extract the final statement from the fold invariant
    obtain ⟨-, hMEM, hCNT⟩ := hfold
    rw [countLiberties_eq n b fuel row col V hnv]
    constructor
    · intro q
      rw [hMEM q, reachAvoid_decompose n b (b row col) V (row, col) q hnv,
        List.mem_cons]
      tauto
    · rw [hCNT]
      constructor
      · rintro ⟨h1, h2⟩ q hq
        rcases (reachAvoid_decompose n b (b row col) V (row, col) q hnv).mp hq
          with hqs | ⟨p, hp, hpc, hpv, hpr⟩
        · rw [hqs]
          exact h1
        · exact h2 p hp hpc hpv q hpr
      · intro hAll
        refine ⟨?_, ?_⟩
        · exact hAll (row, col) Relation.ReflTransGen.refl
        · intro p hp hpc hpv q hq
          exact hAll q
            ((reachAvoid_decompose n b (b row col) V (row, col) q hnv).mpr
              (Or.inr ⟨p, hp, hpc, hpv, hq⟩))

theorem card_cellsF (n : Nat) : (cellsF n).card = n * n := by
  unfold cellsF
  simp only [Finset.card_product, Int.card_Icc]
  have h : ((n : Int) - 1 + 1 - 0).toNat = n := by omega
  rw [h]

/-- `count_liberties` from a fresh visited set: the visited list is exactly
the connected same-color group of the seed, and the returned count is zero
exactly when that group has no liberty. -/
theorem countLibertiesTop_spec (n : Nat) (b : Int → Int → Int)
    (row col : Int) (hin : inBoundsP n row col) (hcol : b row col ≠ 0) :
    (∀ q, q ∈ (countLibertiesTop n b row col).2 ↔
      reaches n b (b row col) (row, col) q) ∧
    ((countLibertiesTop n b row col).1 = 0 ↔
      groupZeroLibs n b (row, col)) := by
  have hfuel : unvisited n ([] : List (Int × Int)) < n * n + 1 := by
    unfold unvisited
    rw [List.toFinset_nil, Finset.sdiff_empty, card_cellsF]
    omega
  obtain ⟨hMEM, hCNT⟩ := countLiberties_spec n b (n * n + 1) [] row col hin
    hcol (List.not_mem_nil (row, col)) hfuel
  constructor
  · intro q
    rw [countLibertiesTop, hMEM q]
    simp only [List.not_mem_nil, false_or]
    exact Iff.rfl
  · rw [countLibertiesTop, hCNT]
    exact Iff.rfl

/-- The boolean `is_suicide` holds exactly when the mover's as-placed group
has zero liberties and no adjacent opponent group has zero liberties. -/
theorem isSuicide_iff (n : Nat) (player : Int) (b : Int → Int → Int)
    (row col : Int) (hin : inBoundsP n row col)
    (hb : b row col = player) (hp : player = 1 ∨ player = -1) :
    isSuicide n player b row col = true ↔
      (groupZeroLibs n b (row, col) ∧
       ∀ p ∈ getNeighbors n row col, b p.1 p.2 = -player →
         ¬groupZeroLibs n b p) := by
  have hbne : b row col ≠ 0 := by
    rw [hb]
    rcases hp with hh | hh <;> rw [hh] <;> decide
  have hopp : -player ≠ 0 := by
    rcases hp with hh | hh <;> rw [hh] <;> decide
  obtain ⟨-, hseed⟩ := countLibertiesTop_spec n b row col hin hbne
  unfold isSuicide
  by_cases h0 : 0 < (countLibertiesTop n b row col).1
  · rw [if_pos h0]
    constructor
    · intro habs
      exact absurd habs (by decide)
    · rintro ⟨hz, -⟩
      exfalso
      have := hseed.mpr hz
      omega
  · rw [if_neg h0]
    have hz : groupZeroLibs n b (row, col) := hseed.mp (by omega)
    by_cases hany : ((getNeighbors n row col).any fun p =>
        decide (b p.1 p.2 = -player) &&
        decide ((countLibertiesTop n b p.1 p.2).1 = 0)) = true
    · rw [if_pos hany]
      constructor
      · intro habs
        exact absurd habs (by decide)
      · rintro ⟨-, hno⟩
        exfalso
        rw [List.any_eq_true] at hany
        obtain ⟨p, hpmem, hpf⟩ := hany
        rw [Bool.and_eq_true, decide_eq_true_eq, decide_eq_true_eq] at hpf
        obtain ⟨hpc, hpz⟩ := hpf
        have hpin : inBoundsP n p.1 p.2 := getNeighbors_inBounds n row col
          hin p hpmem
        have hpne : b p.1 p.2 ≠ 0 := by rw [hpc]; exact hopp
        obtain ⟨-, hpspec⟩ := countLibertiesTop_spec n b p.1 p.2 hpin hpne
        exact hno p hpmem hpc (hpspec.mp hpz)
    · rw [if_neg hany]
      constructor
      · intro hdummy
        refine ⟨hz, ?_⟩
        intro p hpmem hpc hpzero
        apply hany
        rw [List.any_eq_true]
        refine ⟨p, hpmem, ?_⟩
        rw [Bool.and_eq_true, decide_eq_true_eq, decide_eq_true_eq]
        refine ⟨hpc, ?_⟩
        have hpin : inBoundsP n p.1 p.2 := getNeighbors_inBounds n row col
          hin p hpmem
        have hpne : b p.1 p.2 ≠ 0 := by rw [hpc]; exact hopp
        obtain ⟨-, hpspec⟩ := countLibertiesTop_spec n b p.1 p.2 hpin hpne
        exact hpspec.mpr hpzero
      · intro hdummy
        rfl

/-- Claim C2: for every in-bounds empty target cell, `place_stone` rejects
the move as suicide exactly when the mover's group containing the
provisionally placed stone has zero liberties and no orthogonally adjacent
opponent group has zero liberties on the as-placed board; on such a
rejection the provisional stone is retracted and the whole state is
unchanged. -/
theorem c2_suicide_rejection_iff (s : GameState) (row col : Int)
    (h1 : inBoundsP s.boardSize row col) (h2 : s.board row col = 0)
    (hp : s.currentPlayer = 1 ∨ s.currentPlayer = -1) :
    (((placeStone s row col).1 = Except.error MoveError.suicideMove) ↔
      (groupZeroLibs s.boardSize (setCell s.board row col s.currentPlayer)
         (row, col) ∧
       ∀ p ∈ getNeighbors s.boardSize row col,
         setCell s.board row col s.currentPlayer p.1 p.2 = -s.currentPlayer →
           ¬groupZeroLibs s.boardSize
             (setCell s.board row col s.currentPlayer) p)) ∧
    ((placeStone s row col).1 = Except.error MoveError.suicideMove →
      (placeStone s row col).2 = s) := by
  have hb1 : setCell s.board row col s.currentPlayer row col =
      s.currentPlayer := by simp [setCell]
  have hiff := isSuicide_iff s.boardSize s.currentPlayer
    (setCell s.board row col s.currentPlayer) row col h1 hb1 hp
  by_cases hsui : isSuicide s.boardSize s.currentPlayer
      (setCell s.board row col s.currentPlayer) row col = true
  · rw [placeStone_suicide_case s row col h1 h2 hsui]
    refine ⟨⟨fun hdummy => hiff.mp hsui, fun hdummy => rfl⟩, ?_⟩
    intro hdummy
    show ({ s with board := setCell (setCell s.board row col s.currentPlayer) row col 0 }) = s
    rw [setCell_retract s.board row col s.currentPlayer h2]
  · have hsui' : isSuicide s.boardSize s.currentPlayer
        (setCell s.board row col s.currentPlayer) row col = false := by
      rwa [Bool.not_eq_true] at hsui
    have hne : (placeStone s row col).1 ≠
        Except.error MoveError.suicideMove := by
      by_cases h4 : getBoardStateSnapshot s.boardSize
          (setCell s.board row col s.currentPlayer) ∈ s.prevStates
      · rw [placeStone_ko_case s row col h1 h2 hsui' h4]
        simp
      · rw [placeStone_accepted s row col h1 h2 hsui' h4]
        simp
    exact ⟨⟨fun habs => absurd habs hne,
      fun hRHS => absurd (hiff.mpr hRHS) (by simp [hsui'])⟩,
      fun habs => absurd habs hne⟩

/-- Witness for C2 at the concrete suicide position `c2State`: White at
(0,0) on a 2×2 board with Black at (0,1) and (1,0). -/
theorem c2_suicide_rejection_iff_witness :
    (inBoundsP c2State.boardSize 0 0 ∧ c2State.board 0 0 = 0 ∧
     c2State.currentPlayer = -1) ∧
    ((((placeStone c2State 0 0).1 = Except.error MoveError.suicideMove) ↔
      (groupZeroLibs c2State.boardSize
         (setCell c2State.board 0 0 c2State.currentPlayer) (0, 0) ∧
       ∀ p ∈ getNeighbors c2State.boardSize 0 0,
         setCell c2State.board 0 0 c2State.currentPlayer p.1 p.2 =
           -c2State.currentPlayer →
           ¬groupZeroLibs c2State.boardSize
             (setCell c2State.board 0 0 c2State.currentPlayer) p)) ∧
    ((placeStone c2State 0 0).1 = Except.error MoveError.suicideMove →
      (placeStone c2State 0 0).2 = c2State)) :=
  ⟨⟨by decide, by decide, by decide⟩,
   c2_suicide_rejection_iff c2State 0 0 (by decide) (by decide)
     (by decide)⟩

/-- Same-color reachability is symmetric (from an in-bounds seed of the
path's color). -/
theorem reaches_symm (n : Nat) (b : Int → Int → Int) (col : Int)
    (p q : Int × Int) (hin : inBoundsP n p.1 p.2)
    (hcolp : b p.1 p.2 = col) (h : reaches n b col p q) :
    reaches n b col q p := by
  induction h with
  | refl => exact Relation.ReflTransGen.refl
  | @tail m c' h1 h2 ih =>
    have hmin : inBoundsP n m.1 m.2 :=
      reachAvoid_inBounds n b col [] p m hin h1
    have hmem : (m.1, m.2) ∈ getNeighbors n c'.1 c'.2 :=
      getNeighbors_symm n m.1 m.2 hmin c' h2.1.1
    have hmcol : b m.1 m.2 = col := by
      rcases reachAvoid_color n b col [] p m h1 with hh | hh
      · rw [hh]
        exact hcolp
      · exact hh
    exact Relation.ReflTransGen.head ⟨⟨hmem, hmcol⟩, List.not_mem_nil _⟩ ih

/-- Removing from the board a union `U` of whole opponent groups that does
not meet the group of `p` changes neither the reachable group of `p` nor
whether its cells touch an empty cell. -/
theorem reaches_remove_invariant (n : Nat) (b b' : Int → Int → Int)
    (opp : Int) (U : List (Int × Int))
    (hb' : ∀ r c : Int, b' r c = if (r, c) ∈ U then 0 else b r c)
    (hUcol : ∀ u ∈ U, b u.1 u.2 = opp)
    (hUclosed : ∀ u ∈ U, ∀ q, reaches n b opp u q → q ∈ U)
    (hoppne : opp ≠ 0)
    (p : Int × Int) (hpU : p ∉ U) (hpcol : b p.1 p.2 = opp)
    (hpin : inBoundsP n p.1 p.2) :
    (∀ q, reaches n b' opp p q ↔ reaches n b opp p q) ∧
    (∀ q, reaches n b opp p q → (noEmptyNbr n b' q ↔ noEmptyNbr n b q)) := by
  have hnotU : ∀ q, reaches n b opp p q → q ∉ U := by
    intro q hq hqU
    exact hpU (hUclosed q hqU p (reaches_symm n b opp p q hpin hpcol hq))
  have hreach : ∀ q, reaches n b' opp p q ↔ reaches n b opp p q := by
    intro q
    constructor
    · intro h
      induction h with
      | refl => exact Relation.ReflTransGen.refl
      | @tail m c' h1 h2 ih =>
        have hc' := h2.1.2
        rw [hb' c'.1 c'.2] at hc'
        by_cases hcu : (c'.1, c'.2) ∈ U
        · rw [if_pos hcu] at hc'
          exact absurd hc'.symm hoppne
        · rw [if_neg hcu] at hc'
          exact Relation.ReflTransGen.tail ih
            ⟨⟨h2.1.1, hc'⟩, List.not_mem_nil _⟩
    · intro h
      induction h with
      | refl => exact Relation.ReflTransGen.refl
      | @tail m c' h1 h2 ih =>
        have hc'U : c' ∉ U := hnotU c' (Relation.ReflTransGen.tail h1 h2)
        have hb'c : b' c'.1 c'.2 = opp := by
          rw [hb' c'.1 c'.2, if_neg (by simpa using hc'U)]
          exact h2.1.2
        exact Relation.ReflTransGen.tail ih
          ⟨⟨h2.1.1, hb'c⟩, List.not_mem_nil _⟩
  refine ⟨hreach, ?_⟩
  intro q hq
  have hnbrU : ∀ x ∈ getNeighbors n q.1 q.2, x ∉ U := by
    intro x hx hxu
    have hbx : b x.1 x.2 = opp := hUcol x hxu
    exact hnotU x
      (Relation.ReflTransGen.tail hq ⟨⟨hx, hbx⟩, List.not_mem_nil _⟩) hxu
  constructor
  · intro h x hx hbx0
    apply h x hx
    rw [hb' x.1 x.2, if_neg (by simpa using hnbrU x hx)]
    exact hbx0
  · intro h x hx
    rw [hb' x.1 x.2, if_neg (by simpa using hnbrU x hx)]
    exact h x hx

/-- The captured list of `capture_stones` is exactly the union of the
orthogonally adjacent opponent groups that have zero liberties on the
as-placed board. -/
theorem captureStones_members (n : Nat) (player : Int) (b : Int → Int → Int)
    (row col : Int) (hin : inBoundsP n row col) (hb : b row col = player)
    (hp : player = 1 ∨ player = -1) :
    ∀ q, q ∈ (captureStones n player b row col).1 ↔
      capturedSpecAt n player b row col q := by
  have hoppne : -player ≠ 0 := by
    rcases hp with hh | hh <;> rw [hh] <;> decide
  have hfold := foldl_induction_prefix
    (fun (Lp : List (Int × Int))
        (acc : List (Int × Int) × (Int → Int → Int)) =>
      (∀ r c : Int, acc.2 r c = if (r, c) ∈ acc.1 then 0 else b r c) ∧
      (∀ q, q ∈ acc.1 ↔ ∃ p ∈ Lp, b p.1 p.2 = -player ∧
        groupZeroLibs n b p ∧ inGroup n b p q))
    (fun acc p =>
      if acc.2 p.1 p.2 = -player then
        let r := countLibertiesTop n acc.2 p.1 p.2
        if r.1 = 0 then
          (acc.1 ++ r.2, r.2.foldl (fun bb q => setCell bb q.1 q.2 0) acc.2)
        else acc
      else acc)
    (getNeighbors n row col) [] ([], b)
    ⟨fun r c => by simp, fun q => by simp⟩ ?step
  case step =>
    rintro Mp acc x hxL ⟨hboard, hmem⟩
    have habsorb : ∀ q, (∃ p0 ∈ Mp, b p0.1 p0.2 = -player ∧
        groupZeroLibs n b p0 ∧ inGroup n b p0 x) →
        inGroup n b x q → b x.1 x.2 = -player →
        ∃ p0 ∈ Mp, b p0.1 p0.2 = -player ∧
          groupZeroLibs n b p0 ∧ inGroup n b p0 q := by
      rintro q ⟨p0, hp0, h0c, h0z, h0g⟩ hxq hbx
      refine ⟨p0, hp0, h0c, h0z, ?_⟩
      unfold inGroup at h0g hxq ⊢
      rw [h0c] at h0g ⊢
      rw [hbx] at hxq
      exact reachAvoid_trans n b (-player) [] p0 x q h0g hxq
    dsimp only
    by_cases hx1 : acc.2 x.1 x.2 = -player
    · have hxnotacc : (x.1, x.2) ∉ acc.1 := by
        intro hxa
        have hbd := hboard x.1 x.2
        rw [if_pos hxa] at hbd
        rw [hbd] at hx1
        exact hoppne hx1.symm
      have hbx : b x.1 x.2 = -player := by
        have hbd := hboard x.1 x.2
        rw [if_neg hxnotacc] at hbd
        rw [← hbd]
        exact hx1
      have hUcol : ∀ u ∈ acc.1, b u.1 u.2 = -player := by
        intro u hu
        obtain ⟨p0, hp0, h0c, h0z, h0g⟩ := (hmem u).mp hu
        rcases reachAvoid_color n b (b p0.1 p0.2) [] p0 u h0g with hh | hh
        · rw [hh]
          exact h0c
        · rw [hh]
          exact h0c
      have hUclosed : ∀ u ∈ acc.1, ∀ q2, reaches n b (-player) u q2 →
          q2 ∈ acc.1 := by
        intro u hu q2 hq2
        obtain ⟨p0, hp0, h0c, h0z, h0g⟩ := (hmem u).mp hu
        refine (hmem q2).mpr ⟨p0, hp0, h0c, h0z, ?_⟩
        unfold inGroup at h0g ⊢
        rw [h0c] at h0g ⊢
        exact reachAvoid_trans n b (-player) [] p0 u q2 h0g hq2
      have hxin : inBoundsP n x.1 x.2 :=
        getNeighbors_inBounds n row col hin x hxL
      obtain ⟨hreachiff, hnoempiff⟩ := reaches_remove_invariant n b acc.2
        (-player) acc.1 hboard hUcol hUclosed hoppne x
        (by simpa using hxnotacc) hbx hxin
      have hacc2x : acc.2 x.1 x.2 ≠ 0 := by
        rw [hx1]
        exact hoppne
      obtain ⟨hvisit, hcnt⟩ := countLibertiesTop_spec n acc.2 x.1 x.2 hxin
        hacc2x
      rw [hx1] at hvisit
      have hzero_iff : groupZeroLibs n acc.2 (x.1, x.2) ↔
          groupZeroLibs n b (x.1, x.2) := by
        unfold groupZeroLibs inGroup
        rw [hx1, hbx]
        constructor
        · intro h q hq
          exact (hnoempiff q hq).mp (h q ((hreachiff q).mpr hq))
        · intro h q hq
          have hq' : reaches n b (-player) x q := (hreachiff q).mp hq
          exact (hnoempiff q hq').mpr (h q hq')
      rw [if_pos hx1]
      by_cases hz : (countLibertiesTop n acc.2 x.1 x.2).1 = 0
      · rw [if_pos hz]
        have hgz : groupZeroLibs n b (x.1, x.2) :=
          hzero_iff.mp (hcnt.mp hz)
        refine ⟨?_, ?_⟩
        · intro r c
          dsimp only
          rw [restoreList_apply]
          by_cases hv : (r, c) ∈ (countLibertiesTop n acc.2 x.1 x.2).2
          · simp [hv, List.mem_append]
          · rw [if_neg hv, hboard r c]
            by_cases hl : (r, c) ∈ acc.1
            · simp [hl, List.mem_append]
            · simp [hl, hv, List.mem_append]
        · intro q
          dsimp only
          rw [List.mem_append, hmem q, hvisit q]
          constructor
          · rintro (⟨p0, hp0, h0c, h0z, h0g⟩ | hreach)
            · exact ⟨p0, List.mem_append_left _ hp0, h0c, h0z, h0g⟩
            · refine ⟨x, List.mem_append_right _ (List.mem_singleton_self x),
                hbx, hgz, ?_⟩
              unfold inGroup
              rw [hbx]
              exact (hreachiff q).mp hreach
          · rintro ⟨p0, hp0, h0c, h0z, h0g⟩
            rcases List.mem_append.mp hp0 with hm | hm
            · exact Or.inl ⟨p0, hm, h0c, h0z, h0g⟩
            · rw [List.mem_singleton] at hm
              subst hm
              right
              refine (hreachiff q).mpr ?_
              unfold inGroup at h0g
              rw [h0c] at h0g
              exact h0g
      · rw [if_neg hz]
        have hngz : ¬groupZeroLibs n b (x.1, x.2) :=
          fun hgz => hz (hcnt.mpr (hzero_iff.mpr hgz))
        refine ⟨hboard, ?_⟩
        intro q
        rw [hmem q]
        constructor
        · rintro ⟨p0, hp0, h0c, h0z, h0g⟩
          exact ⟨p0, List.mem_append_left _ hp0, h0c, h0z, h0g⟩
        · rintro ⟨p0, hp0, h0c, h0z, h0g⟩
          rcases List.mem_append.mp hp0 with hm | hm
          · exact ⟨p0, hm, h0c, h0z, h0g⟩
          · rw [List.mem_singleton] at hm
            subst hm
            exact absurd h0z hngz
    · rw [if_neg hx1]
      refine ⟨hboard, ?_⟩
      intro q
      rw [hmem q]
      constructor
      · rintro ⟨p0, hp0, h0c, h0z, h0g⟩
        exact ⟨p0, List.mem_append_left _ hp0, h0c, h0z, h0g⟩
      · rintro ⟨p0, hp0, h0c, h0z, h0g⟩
        rcases List.mem_append.mp hp0 with hm | hm
        · exact ⟨p0, hm, h0c, h0z, h0g⟩
        · rw [List.mem_singleton] at hm
          rw [hm] at h0c h0z h0g
          by_cases hxa : (x.1, x.2) ∈ acc.1
          · exact habsorb q ((hmem (x.1, x.2)).mp hxa) h0g h0c
          · have hbd := hboard x.1 x.2
            rw [if_neg hxa] at hbd
            rw [← hbd] at h0c
            exact absurd h0c hx1
  obtain ⟨-, hmem⟩ := hfold
  intro q
  unfold captureStones
  rw [hmem q]
  unfold capturedSpecAt
  constructor
  · rintro ⟨p0, hp0, h0c, h0z, h0g⟩
    exact ⟨p0, by simpa using hp0, h0c, h0z, h0g⟩
  · rintro ⟨p0, hp0, h0c, h0z, h0g⟩
    exact ⟨p0, by simpa using hp0, h0c, h0z, h0g⟩

/-- Claim C3: on the as-placed board, the capture step removes exactly the
union of the coordinate sets of the orthogonally adjacent opponent groups
whose liberty count is zero: every such coordinate becomes empty, no other
cell changes, the mover's stones are never removed, and the returned
captured list contains exactly those coordinates, each once. -/
theorem c3_capture_exact (n : Nat) (player : Int) (b : Int → Int → Int)
    (row col : Int) (hin : inBoundsP n row col) (hb : b row col = player)
    (hp : player = 1 ∨ player = -1) :
    (∀ q, q ∈ (captureStones n player b row col).1 ↔
      capturedSpecAt n player b row col q) ∧
    (∀ q : Int × Int, capturedSpecAt n player b row col q →
      (captureStones n player b row col).2 q.1 q.2 = 0) ∧
    (∀ q : Int × Int, ¬capturedSpecAt n player b row col q →
      (captureStones n player b row col).2 q.1 q.2 = b q.1 q.2) ∧
    (∀ q : Int × Int, b q.1 q.2 = player →
      (captureStones n player b row col).2 q.1 q.2 = player) ∧
    ((captureStones n player b row col).1).Nodup := by
  obtain ⟨hboard, hcolor, hnodup⟩ := captureStones_basic n player b row col hp
  have hmem := captureStones_members n player b row col hin hb hp
  have hppne : player ≠ -player := by
    rcases hp with hh | hh <;> rw [hh] <;> decide
  refine ⟨hmem, ?_, ?_, ?_, hnodup⟩
  · intro q hq
    have hql : (q.1, q.2) ∈ (captureStones n player b row col).1 :=
      (hmem (q.1, q.2)).mpr hq
    rw [hboard q.1 q.2, if_pos hql]
  · intro q hq
    have hql : (q.1, q.2) ∉ (captureStones n player b row col).1 :=
      fun hmem2 => hq ((hmem (q.1, q.2)).mp hmem2)
    rw [hboard q.1 q.2, if_neg hql]
  · intro q hq
    have hql : (q.1, q.2) ∉ (captureStones n player b row col).1 := by
      intro hmem2
      have := hcolor (q.1, q.2) hmem2
      rw [hq] at this
      exact hppne this
    rw [hboard q.1 q.2, if_neg hql]
    exact hq

/-- Witness for C3 at the concrete capture of White (0,0) by Black's stone
at (1,0) on `c3Board`, instantiated at the captured coordinate (0,0). -/
theorem c3_capture_exact_witness :
    (inBoundsP 3 1 0 ∧ c3Board 1 0 = 1) ∧
    (((0, 0) ∈ (captureStones 3 1 c3Board 1 0).1 ↔
       capturedSpecAt 3 1 c3Board 1 0 (0, 0)) ∧
     (capturedSpecAt 3 1 c3Board 1 0 (0, 0) →
       (captureStones 3 1 c3Board 1 0).2 0 0 = 0) ∧
     (c3Board 1 0 = 1 → (captureStones 3 1 c3Board 1 0).2 1 0 = 1) ∧
     ((captureStones 3 1 c3Board 1 0).1).Nodup) :=
  ⟨⟨by decide, by decide⟩,
   (c3_capture_exact 3 1 c3Board 1 0 (by decide) (by decide)
      (Or.inl rfl)).1 (0, 0),
   (c3_capture_exact 3 1 c3Board 1 0 (by decide) (by decide)
      (Or.inl rfl)).2.1 (0, 0),
   (c3_capture_exact 3 1 c3Board 1 0 (by decide) (by decide)
      (Or.inl rfl)).2.2.2.1 (1, 0),
   (c3_capture_exact 3 1 c3Board 1 0 (by decide) (by decide)
      (Or.inl rfl)).2.2.2.2⟩
